import Mathlib

/-!
Verification of the k-mer clump-detection core of a bioinformatics repository.

The Python sources are shallowly embedded: DNA strings become `List Char`,
Python ints become `Nat`/`Int`, dictionaries become total functions with the
default value the code would insert, and the fallible deque `popleft` becomes
an `Option`-valued step.  Every definition follows the corresponding Python
function (named in its doc comment); theorems then settle the specification
claims against these definitions.
-/

set_option maxHeartbeats 1000000

namespace BioSpec

/-- The four DNA bases, in the iteration order `"ACGT"` used by the scripts. -/
def bases : List Char := ['A', 'C', 'G', 'T']

/-- Whether a character is one of the four uppercase DNA bases. -/
def isBase (c : Char) : Bool := c == 'A' || c == 'C' || c == 'G' || c == 'T'

/-- A valid DNA string: every character is an uppercase base. -/
def validDNA (s : List Char) : Bool := s.all isBase

/-- `get_val` from `PatternToNumber.py` / `BetterClumpFinder.py`:
`{'A':0,'C':1,'G':2,'T':3}.get(symbol.upper(), 0)` — note the default `0`
for characters outside the alphabet. -/
def get_val (c : Char) : Nat :=
  if c.toUpper = 'A' then 0
  else if c.toUpper = 'C' then 1
  else if c.toUpper = 'G' then 2
  else if c.toUpper = 'T' then 3
  else 0

/-- `patternToNumber` from `PatternToNumber.py`:
left fold `number = number * 4 + get_val(char)` starting from `0`. -/
def patternToNumber (pattern : List Char) : Nat :=
  pattern.foldl (fun number c => number * 4 + get_val c) 0

/-- `bases[n]` for `n = index % 4` in `numberToPattern`. -/
def baseOf (n : Nat) : Char :=
  if n = 0 then 'A' else if n = 1 then 'C' else if n = 2 then 'G' else 'T'

/-- `numberToPattern` from `NumberToPattern.py`: `k` times prepend
`bases[index % 4]` and divide `index` by 4.  The loop builds the digits
least-significant first while prepending, so the recursion peels the last
digit off and appends it. -/
def numberToPattern : Nat → Nat → List Char
  | _, 0 => []
  | index, k + 1 => numberToPattern (index / 4) k ++ [baseOf (index % 4)]

/-- The rolling-index update from `BetterClumpFinder.py` line 41/73:
`((current % mask) * 4) + get_val(new)` with `mask = 4^(k-1)`. -/
def rollingNext (currentIndex : Nat) (k : Nat) (newSymbol : Char) : Nat :=
  (currentIndex % 4 ^ (k - 1)) * 4 + get_val newSymbol

/-- The k-mer of `s` starting at position `i`: `s[i : i + k]`. -/
def kmerAt (s : List Char) (i k : Nat) : List Char := (s.drop i).take k

/-- `hamming_distance` from `bio_utils.py`:
`sum(a != b for a, b in zip(s1, s2))`. -/
def hamming_distance (s1 s2 : List Char) : Nat :=
  (s1.zip s2).countP (fun ab => ab.1 != ab.2)

/-- The per-character action of `str.maketrans("ACGT", "TGCA")`: bases are
complemented, all other characters are left unchanged (Python `translate`
leaves unmapped characters as they are). -/
def complement (c : Char) : Char :=
  if c = 'A' then 'T'
  else if c = 'C' then 'G'
  else if c = 'G' then 'C'
  else if c = 'T' then 'A'
  else c

/-- `reverse_complement` from `bio_utils.py`:
`pattern.translate(tabla)[::-1]`. -/
def reverse_complement (pattern : List Char) : List Char :=
  (pattern.map complement).reverse

/-- The inner `generate` of `neighborhood` in `bio_utils.py`: at each position
keep the original character (always) and, if mismatch budget remains,
substitute each of the other bases, consuming one unit of budget. -/
def generate : List Char → Nat → List (List Char)
  | [], _ => [[]]
  | c :: rest, rd =>
      ((generate rest rd).map (fun suffix => c :: suffix)) ++
      (if 0 < rd then
        (bases.filter (fun b => b != c)).flatMap
          (fun b => (generate rest (rd - 1)).map (fun suffix => b :: suffix))
      else [])

/-- `neighborhood(pattern, d)` from `bio_utils.py`: the `set(...)` of the
generated strings. -/
def neighborhood (pattern : List Char) (d : Nat) : Finset (List Char) :=
  (generate pattern d).toFinset

/-! ### Basic facts about the codec -/

theorem get_val_lt (c : Char) : get_val c < 4 := by
  unfold get_val; split_ifs <;> omega

theorem patternToNumber_foldl (xs : List Char) (a : Nat) :
    xs.foldl (fun number c => number * 4 + get_val c) a
      = a * 4 ^ xs.length + patternToNumber xs := by
  induction xs generalizing a with
  | nil => simp [patternToNumber]
  | cons c xs ih =>
      simp only [List.foldl_cons, List.length_cons, patternToNumber]
      rw [ih (a * 4 + get_val c), ih (0 * 4 + get_val c)]
      ring

theorem patternToNumber_cons (c : Char) (xs : List Char) :
    patternToNumber (c :: xs) = get_val c * 4 ^ xs.length + patternToNumber xs := by
  simp [patternToNumber, List.foldl_cons, patternToNumber_foldl xs (get_val c)]

theorem patternToNumber_append_singleton (xs : List Char) (c : Char) :
    patternToNumber (xs ++ [c]) = patternToNumber xs * 4 + get_val c := by
  simp [patternToNumber, List.foldl_append]

theorem patternToNumber_lt (p : List Char) :
    patternToNumber p < 4 ^ p.length := by
  induction p with
  | nil => simp [patternToNumber]
  | cons c xs ih =>
      rw [patternToNumber_cons]
      have h1 : get_val c < 4 := get_val_lt c
      have h2 : get_val c * 4 ^ xs.length ≤ 3 * 4 ^ xs.length :=
        Nat.mul_le_mul_right _ (by omega)
      simp only [List.length_cons, pow_succ]
      omega

theorem patternToNumber_cons_mod (c : Char) (xs : List Char) :
    patternToNumber (c :: xs) % 4 ^ xs.length = patternToNumber xs := by
  rw [patternToNumber_cons, Nat.add_comm, Nat.add_mul_mod_self_right,
    Nat.mod_eq_of_lt (patternToNumber_lt xs)]

theorem rollingNext_cons (c : Char) (xs : List Char) (e : Char) :
    rollingNext (patternToNumber (c :: xs)) (xs.length + 1) e
      = patternToNumber (xs ++ [e]) := by
  simp only [rollingNext, Nat.add_sub_cancel, patternToNumber_cons_mod,
    patternToNumber_append_singleton]

theorem get_val_baseOf (n : Nat) (h : n < 4) : get_val (baseOf n) = n := by
  interval_cases n <;> decide

theorem baseOf_get_val (c : Char) (h : isBase c = true) : baseOf (get_val c) = c := by
  simp only [isBase, Bool.or_eq_true, beq_iff_eq] at h
  rcases h with ((h | h) | h) | h <;> subst h <;> decide

theorem isBase_baseOf (n : Nat) : isBase (baseOf n) = true := by
  unfold baseOf; split_ifs <;> decide

theorem get_val_of_isBase (c : Char) (h : isBase c = true) :
    get_val c = if c = 'A' then 0 else if c = 'C' then 1 else if c = 'G' then 2 else 3 := by
  simp only [isBase, Bool.or_eq_true, beq_iff_eq] at h
  rcases h with ((h | h) | h) | h <;> subst h <;> decide

theorem numberToPattern_length (i k : Nat) : (numberToPattern i k).length = k := by
  induction k generalizing i with
  | zero => simp [numberToPattern]
  | succ k ih => simp [numberToPattern, ih]

theorem validDNA_numberToPattern (i k : Nat) : validDNA (numberToPattern i k) = true := by
  induction k generalizing i with
  | zero => simp [numberToPattern, validDNA]
  | succ k ih =>
      unfold numberToPattern validDNA
      rw [List.all_append]
      simp only [Bool.and_eq_true]
      exact ⟨ih _, by simp [isBase_baseOf]⟩

theorem patternToNumber_numberToPattern (k i : Nat) (h : i < 4 ^ k) :
    patternToNumber (numberToPattern i k) = i := by
  induction k generalizing i with
  | zero =>
      simp only [pow_zero, Nat.lt_one_iff] at h
      simp [numberToPattern, patternToNumber, h]
  | succ k ih =>
      have hdiv : i / 4 < 4 ^ k := by
        rw [Nat.div_lt_iff_lt_mul (by norm_num)]
        calc i < 4 ^ (k + 1) := h
        _ = 4 ^ k * 4 := by ring
      rw [numberToPattern, patternToNumber_append_singleton, ih _ hdiv,
        get_val_baseOf _ (Nat.mod_lt _ (by norm_num))]
      omega

theorem numberToPattern_patternToNumber (p : List Char) (h : validDNA p = true) :
    numberToPattern (patternToNumber p) p.length = p := by
  induction p using List.reverseRecOn with
  | nil => simp [numberToPattern, patternToNumber]
  | append_singleton xs c ih =>
      have hxs : validDNA xs = true := by
        simp only [validDNA, List.all_append] at h
        exact (Bool.and_eq_true _ _ |>.mp h).1
      have hc : isBase c = true := by
        simp only [validDNA, List.all_append, List.all_cons, List.all_nil,
          Bool.and_eq_true] at h
        exact h.2.1
      have hv : get_val c < 4 := get_val_lt c
      rw [patternToNumber_append_singleton, List.length_append, List.length_cons,
        List.length_nil, numberToPattern]
      have hdiv : (patternToNumber xs * 4 + get_val c) / 4 = patternToNumber xs := by
        omega
      have hmod : (patternToNumber xs * 4 + get_val c) % 4 = get_val c := by
        omega
      rw [hdiv, hmod, ih hxs, baseOf_get_val c hc]

/-- C4. Codec round-trip: for every `k` in `[1,10]` and every `i < 4^k`,
`patternToNumber (numberToPattern i k) = i`, and for every `k`-length pattern
over `{A,C,G,T}`, `numberToPattern (patternToNumber p) k = p`. -/
theorem codec_round_trip (k : Nat) (hk1 : 1 ≤ k) (hk2 : k ≤ 10) :
    (∀ i, i < 4 ^ k → patternToNumber (numberToPattern i k) = i) ∧
    (∀ p : List Char, p.length = k → validDNA p = true →
      numberToPattern (patternToNumber p) k = p) := by
  refine ⟨fun i hi => patternToNumber_numberToPattern k i hi, fun p hp hv => ?_⟩
  rw [← hp]; exact numberToPattern_patternToNumber p hv

/-- Witness for C4 at `k = 3`, `i = 57`, `p = "TGC"`. -/
theorem codec_round_trip_witness :
    (1 ≤ 3 ∧ 3 ≤ 10) ∧ 57 < 4 ^ 3 ∧
      patternToNumber (numberToPattern 57 3) = 57 ∧
      numberToPattern (patternToNumber ['T', 'G', 'C']) 3 = ['T', 'G', 'C'] :=
  ⟨by decide, by decide,
    (codec_round_trip 3 (by decide) (by decide)).1 57 (by decide),
    (codec_round_trip 3 (by decide) (by decide)).2 ['T', 'G', 'C'] (by decide) (by decide)⟩

/-! ### C8: behaviour of the encoder on characters outside the alphabet.

`get_val` is `mapping.get(symbol.upper(), 0)`: a character outside
`{A,C,G,T}` (case-insensitive) is silently given the value `0` — the code
never raises, so the encoder cannot "fail with InvalidSymbol". -/

/-- C8 counterexample: `patternToNumber` does not fail on the invalid
character `'X'`; it returns a normal index, exactly the index of the same
pattern with `'X'` replaced by `'A'`. -/
theorem patternToNumber_invalid_no_failure :
    patternToNumber ['X', 'C', 'G'] = patternToNumber ['A', 'C', 'G'] ∧
    patternToNumber ['X', 'C', 'G'] = 6 := by
  constructor <;> decide

theorem get_val_eq_zero_of_not_base (c : Char) (hc : isBase c.toUpper = false) :
    get_val c = 0 := by
  simp only [isBase, Bool.or_eq_false_iff, beq_eq_false_iff_ne, ne_eq] at hc
  unfold get_val
  split_ifs with h1 h2 h3 h4 <;> simp_all

/-- C8 amended: `patternToNumber` is total; every character outside
`{A,C,G,T}` (case-insensitive) gets value `0`, so a pattern containing
invalid characters is encoded as if each invalid character were `'A'`, and
the result is always a valid index below `4 ^ length`. -/
theorem patternToNumber_total_invalid_as_zero :
    (∀ c : Char, isBase c.toUpper = false → get_val c = 0) ∧
    (∀ p : List Char,
      patternToNumber p
        = patternToNumber (p.map (fun c => if isBase c.toUpper then c else 'A'))) ∧
    (∀ p : List Char, patternToNumber p < 4 ^ p.length) := by
  refine ⟨get_val_eq_zero_of_not_base, fun p => ?_, patternToNumber_lt⟩
  have hval : ∀ c : Char, get_val (if isBase c.toUpper then c else 'A') = get_val c := by
    intro c
    by_cases h : isBase c.toUpper = true
    · simp [h]
    · have h' : isBase c.toUpper = false := by simpa using h
      rw [if_neg (by simp [h']), get_val_eq_zero_of_not_base c h']
      decide
  induction p using List.reverseRecOn with
  | nil => rfl
  | append_singleton xs c ih =>
      simp only [List.map_append, List.map_cons, List.map_nil,
        patternToNumber_append_singleton, hval, ih]

/-- Witness for C8's amended theorem at `c = 'x'` and `p = "XG"`. -/
theorem patternToNumber_total_invalid_as_zero_witness :
    isBase 'x'.toUpper = false ∧ get_val 'x' = 0 ∧
      patternToNumber ['X', 'G']
        = patternToNumber (['X', 'G'].map (fun c => if isBase c.toUpper then c else 'A')) ∧
      patternToNumber ['X', 'G'] < 4 ^ (['X', 'G'] : List Char).length :=
  ⟨by decide, patternToNumber_total_invalid_as_zero.1 'x' (by decide),
    patternToNumber_total_invalid_as_zero.2.1 ['X', 'G'],
    patternToNumber_total_invalid_as_zero.2.2 ['X', 'G']⟩

/-! ### C3: correctness of the rolling-index update -/

theorem kmerAt_length (s : List Char) (i k : Nat) (h : i + k ≤ s.length) :
    (kmerAt s i k).length = k := by
  simp only [kmerAt, List.length_take, List.length_drop]
  omega

theorem kmerAt_cons (s : List Char) (i k : Nat) (hi : i < s.length) :
    kmerAt s i (k + 1) = s.getD i 'A' :: kmerAt s (i + 1) k := by
  simp only [kmerAt, List.drop_eq_getElem_cons hi, List.take_succ_cons,
    List.getD_eq_getElem s 'A' hi]

theorem kmerAt_append_last (s : List Char) (i k : Nat) (h : i + k < s.length) :
    kmerAt s i (k + 1) = kmerAt s i k ++ [s.getD (i + k) 'A'] := by
  have hk : k < (s.drop i).length := by simp [List.length_drop]; omega
  simp only [kmerAt, List.take_succ]
  congr 1
  rw [List.getElem?_eq_getElem hk]
  simp only [Option.toList_some, List.getElem_drop]
  rw [List.getD_eq_getElem s 'A' h]

/-- C3. The mask-based rolling update, applied to the index of the k-mer at
position `i - 1`, yields the index of the k-mer at position `i`; for `k = 1`
the update degenerates to `get_val` of the new symbol. -/
theorem rolling_index_identity (s : List Char) (k i : Nat) (hk : 1 ≤ k)
    (hi : 1 ≤ i) (hik : i + k ≤ s.length) :
    rollingNext (patternToNumber (kmerAt s (i - 1) k)) k (s.getD (i + k - 1) 'A')
      = patternToNumber (kmerAt s i k) ∧
    (∀ (idx : Nat) (c : Char), rollingNext idx 1 c = get_val c) := by
  constructor
  · obtain ⟨m, rfl⟩ : ∃ m, k = m + 1 := ⟨k - 1, by omega⟩
    obtain ⟨j, rfl⟩ : ∃ j, i = j + 1 := ⟨i - 1, by omega⟩
    have h1 : kmerAt s j (m + 1) = s.getD j 'A' :: kmerAt s (j + 1) m :=
      kmerAt_cons s j m (by omega)
    have h2 : kmerAt s (j + 1) (m + 1) = kmerAt s (j + 1) m ++ [s.getD (j + 1 + m) 'A'] :=
      kmerAt_append_last s (j + 1) m (by omega)
    have h3 : (kmerAt s (j + 1) m).length = m := kmerAt_length s (j + 1) m (by omega)
    have hidx : j + 1 + (m + 1) - 1 = j + 1 + m := by omega
    have key := rollingNext_cons (s.getD j 'A') (kmerAt s (j + 1) m) (s.getD (j + 1 + m) 'A')
    rw [h3] at key
    rw [hidx, Nat.add_sub_cancel, h1, h2]
    exact key
  · intro idx c
    simp [rollingNext, Nat.mod_one]

/-- Witness for C3 on `s = "ACGT"`, `k = 2`, `i = 1`. -/
theorem rolling_index_identity_witness :
    (1 ≤ 2 ∧ 1 ≤ 1 ∧ 1 + 2 ≤ (['A', 'C', 'G', 'T'] : List Char).length) ∧
      (rollingNext
          (patternToNumber (kmerAt ['A', 'C', 'G', 'T'] (1 - 1) 2)) 2
          ((['A', 'C', 'G', 'T'] : List Char).getD (1 + 2 - 1) 'A')
        = patternToNumber (kmerAt ['A', 'C', 'G', 'T'] 1 2) ∧
      (∀ (idx : Nat) (c : Char), rollingNext idx 1 c = get_val c)) :=
  ⟨by decide, rolling_index_identity ['A', 'C', 'G', 'T'] 2 1 (by decide) (by decide) (by decide)⟩

/-! ### C10: reverse complement is a length-preserving involution that
preserves Hamming distance -/

theorem complement_complement (c : Char) : complement (complement c) = c := by
  by_cases h1 : c = 'A'
  · subst h1; decide
  by_cases h2 : c = 'C'
  · subst h2; decide
  by_cases h3 : c = 'G'
  · subst h3; decide
  by_cases h4 : c = 'T'
  · subst h4; decide
  have hc : complement c = c := by unfold complement; simp [h1, h2, h3, h4]
  rw [hc, hc]

theorem complement_injective (a b : Char) (h : complement a = complement b) : a = b := by
  have h2 := congrArg complement h
  rwa [complement_complement, complement_complement] at h2

theorem reverse_complement_involutive (p : List Char) :
    reverse_complement (reverse_complement p) = p := by
  unfold reverse_complement
  rw [List.map_reverse, List.reverse_reverse, List.map_map]
  induction p with
  | nil => rfl
  | cons c l ih => simp only [List.map_cons, Function.comp_apply,
      complement_complement, ih, List.map_map]

theorem reverse_complement_length (p : List Char) :
    (reverse_complement p).length = p.length := by
  simp [reverse_complement]

theorem bne_complement (x y : Char) : (complement x != complement y) = (x != y) := by
  by_cases h : x = y
  · subst h; simp
  · have hne : complement x ≠ complement y := fun hc => h (complement_injective _ _ hc)
    rw [bne_iff_ne.mpr hne, bne_iff_ne.mpr h]

theorem hamming_map_complement (a b : List Char) :
    hamming_distance (a.map complement) (b.map complement) = hamming_distance a b := by
  unfold hamming_distance
  rw [List.zip_map, List.countP_map]
  apply List.countP_congr
  intro ab _
  cases ab with
  | mk x y => simp [Prod.map, bne_complement]

theorem zip_reverse_of_length_eq {α β : Type} :
    ∀ (a : List α) (b : List β), a.length = b.length →
      (a.reverse).zip (b.reverse) = (a.zip b).reverse := by
  intro a
  induction a with
  | nil =>
      intro b hb
      simp only [List.length_nil] at hb
      have hb0 : b = [] := List.length_eq_zero.mp hb.symm
      subst hb0
      rfl
  | cons x a' ih =>
      intro b hb
      cases b with
      | nil => exact absurd hb (by simp)
      | cons y b' =>
          simp only [List.length_cons, Nat.succ.injEq] at hb
          simp only [List.reverse_cons, List.zip_cons_cons]
          rw [List.zip_append (by simp [hb]), ih b' hb]
          simp

theorem hamming_reverse (a b : List Char) (h : a.length = b.length) :
    hamming_distance a.reverse b.reverse = hamming_distance a b := by
  unfold hamming_distance
  rw [zip_reverse_of_length_eq a b h]
  exact (List.reverse_perm _).countP_eq _

theorem hamming_reverse_complement (a b : List Char) (h : a.length = b.length) :
    hamming_distance (reverse_complement a) (reverse_complement b)
      = hamming_distance a b := by
  unfold reverse_complement
  rw [hamming_reverse _ _ (by simp [h]), hamming_map_complement]

theorem hamming_reverse_complement_swap (a b : List Char) (h : a.length = b.length) :
    hamming_distance (reverse_complement a) b
      = hamming_distance a (reverse_complement b) := by
  have h1 : hamming_distance (reverse_complement a) (reverse_complement (reverse_complement b))
      = hamming_distance a (reverse_complement b) :=
    hamming_reverse_complement a (reverse_complement b)
      (by rw [reverse_complement_length]; exact h)
  rwa [reverse_complement_involutive b] at h1

/-- C10. `reverse_complement` is a length-preserving involution and preserves
Hamming distance between equal-length strings; consequently matching an
occurrence against the reverse complement of a candidate is the same as
matching the occurrence's reverse complement against the candidate. -/
theorem reverse_complement_properties (p : List Char) (hp : validDNA p = true) :
    reverse_complement (reverse_complement p) = p ∧
    (reverse_complement p).length = p.length ∧
    (∀ a b : List Char, a.length = b.length →
      hamming_distance (reverse_complement a) (reverse_complement b)
        = hamming_distance a b) ∧
    (∀ a b : List Char, a.length = b.length →
      hamming_distance (reverse_complement a) b
        = hamming_distance a (reverse_complement b)) :=
  ⟨reverse_complement_involutive p, reverse_complement_length p,
    hamming_reverse_complement, hamming_reverse_complement_swap⟩

/-- Witness for C10 at `p = "ACG"`, `a = "AC"`, `b = "GT"`. -/
theorem reverse_complement_properties_witness :
    validDNA ['A', 'C', 'G'] = true ∧
      reverse_complement (reverse_complement ['A', 'C', 'G']) = ['A', 'C', 'G'] ∧
      hamming_distance (reverse_complement ['A', 'C']) (reverse_complement ['G', 'T'])
        = hamming_distance ['A', 'C'] ['G', 'T'] :=
  ⟨by decide, (reverse_complement_properties ['A', 'C', 'G'] (by decide)).1,
    (reverse_complement_properties ['A', 'C', 'G'] (by decide)).2.2.1 ['A', 'C'] ['G', 'T'] rfl⟩

/-! ### C5: the d-neighborhood generator -/

theorem hamming_nil_left (q : List Char) : hamming_distance [] q = 0 := by
  simp [hamming_distance]

theorem hamming_cons (c x : Char) (p q : List Char) :
    hamming_distance (c :: p) (x :: q)
      = hamming_distance p q + (if c != x then 1 else 0) := by
  simp [hamming_distance, List.zip_cons_cons, List.countP_cons]

theorem hamming_self (p : List Char) : hamming_distance p p = 0 := by
  induction p with
  | nil => rfl
  | cons c p ih => simp [hamming_cons, ih]

theorem hamming_eq_zero_iff : ∀ (p q : List Char), p.length = q.length →
    (hamming_distance p q = 0 ↔ p = q) := by
  intro p
  induction p with
  | nil =>
      intro q hq
      have : q = [] := List.length_eq_zero.mp hq.symm
      subst this
      simp [hamming_nil_left]
  | cons c p ih =>
      intro q hq
      cases q with
      | nil => simp at hq
      | cons x q' =>
          simp only [List.length_cons, Nat.succ.injEq] at hq
          rw [hamming_cons]
          constructor
          · intro h
            have h1 : hamming_distance p q' = 0 := by omega
            have h2 : (if c != x then 1 else 0) = 0 := by omega
            have hcx : c = x := by
              by_contra hne
              rw [if_pos (bne_iff_ne.mpr hne)] at h2
              omega
            rw [hcx, (ih q' hq).mp h1]
          · intro h
            cases h
            simp [hamming_self]

theorem mem_bases (x : Char) : x ∈ bases ↔ isBase x = true := by
  simp only [bases, isBase, List.mem_cons, List.not_mem_nil, or_false,
    Bool.or_eq_true, beq_iff_eq]
  tauto

theorem mem_generate : ∀ (p : List Char) (d : Nat) (q : List Char), validDNA p = true →
    (q ∈ generate p d ↔
      q.length = p.length ∧ validDNA q = true ∧ hamming_distance p q ≤ d) := by
  intro p
  induction p with
  | nil =>
      intro d q _
      simp only [generate, List.mem_singleton]
      constructor
      · rintro rfl
        simp [validDNA, hamming_nil_left]
      · rintro ⟨h1, -, -⟩
        exact List.length_eq_zero.mp h1
  | cons c rest ih =>
      intro d q hp
      have hc : isBase c = true := by
        simp only [validDNA, List.all_cons, Bool.and_eq_true] at hp
        exact hp.1
      have hrest : validDNA rest = true := by
        simp only [validDNA, List.all_cons, Bool.and_eq_true] at hp
        exact hp.2
      cases q with
      | nil =>
          constructor
          · intro hmem
            exfalso
            by_cases hd : 0 < d
            · simp only [generate, if_pos hd, List.mem_append, List.mem_map,
                List.mem_flatMap] at hmem
              rcases hmem with ⟨s, -, hs⟩ | ⟨b, -, s, -, hs⟩ <;>
                exact List.cons_ne_nil _ _ hs
            · simp only [generate, if_neg hd, List.append_nil, List.mem_map] at hmem
              rcases hmem with ⟨s, -, hs⟩
              exact List.cons_ne_nil _ _ hs
          · rintro ⟨h1, -, -⟩
            simp at h1
      | cons x q' =>
          by_cases hx : x = c
          · subst hx
            have lhs_iff : x :: q' ∈ generate (x :: rest) d ↔ q' ∈ generate rest d := by
              by_cases hd : 0 < d
              · simp only [generate, if_pos hd, List.mem_append, List.mem_map,
                  List.mem_flatMap, List.mem_filter]
                constructor
                · rintro (⟨s, hs, hcons⟩ | ⟨b, ⟨-, hbne⟩, s, -, hcons⟩)
                  · injection hcons with h1 h2
                    subst h2
                    exact hs
                  · injection hcons with h1 h2
                    exact absurd h1 (bne_iff_ne.mp hbne)
                · intro hmem
                  exact Or.inl ⟨q', hmem, rfl⟩
              · simp only [generate, if_neg hd, List.append_nil, List.mem_map]
                constructor
                · rintro ⟨s, hs, hcons⟩
                  injection hcons with h1 h2
                  subst h2
                  exact hs
                · intro hmem
                  exact ⟨q', hmem, rfl⟩
            rw [lhs_iff, ih d q' hrest, hamming_cons]
            simp only [bne_self_eq_false, Bool.false_eq_true, if_false, Nat.add_zero,
              List.length_cons, Nat.succ.injEq, validDNA, List.all_cons,
              Bool.and_eq_true, hc]
            tauto
          · have hxc : c ≠ x := fun h => hx h.symm
            have lhs_iff : x :: q' ∈ generate (c :: rest) d ↔
                0 < d ∧ isBase x = true ∧ q' ∈ generate rest (d - 1) := by
              by_cases hd : 0 < d
              · simp only [generate, if_pos hd, List.mem_append, List.mem_map,
                  List.mem_flatMap, List.mem_filter]
                constructor
                · rintro (⟨s, -, hcons⟩ | ⟨b, ⟨hb, -⟩, s, hs, hcons⟩)
                  · injection hcons with h1 h2
                    exact absurd h1.symm hx
                  · injection hcons with h1 h2
                    subst h1
                    subst h2
                    exact ⟨hd, (mem_bases b).mp hb, hs⟩
                · rintro ⟨-, hbx, hmem⟩
                  exact Or.inr ⟨x, ⟨(mem_bases x).mpr hbx, bne_iff_ne.mpr hx⟩,
                    q', hmem, rfl⟩
              · constructor
                · simp only [generate, if_neg hd, List.append_nil, List.mem_map]
                  rintro ⟨s, -, hcons⟩
                  injection hcons with h1 h2
                  exact absurd h1.symm hx
                · rintro ⟨hd2, -, -⟩
                  exact absurd hd2 hd
            rw [lhs_iff, ih (d - 1) q' hrest, hamming_cons,
              if_pos (bne_iff_ne.mpr hxc)]
            simp only [List.length_cons, Nat.succ.injEq, validDNA, List.all_cons,
              Bool.and_eq_true]
            constructor
            · rintro ⟨hd, hbx, hlen, hval, hham⟩
              exact ⟨hlen, ⟨hbx, hval⟩, by omega⟩
            · rintro ⟨hlen, ⟨hbx, hval⟩, hham⟩
              exact ⟨by omega, hbx, hlen, hval, by omega⟩

theorem cons_injective_char (c : Char) :
    Function.Injective (fun s : List Char => c :: s) := by
  intro a b h
  injection h

theorem nodup_generate : ∀ (p : List Char) (d : Nat), validDNA p = true →
    (generate p d).Nodup := by
  intro p
  induction p with
  | nil => intro d _; simp [generate]
  | cons c rest ih =>
      intro d hp
      have hrest : validDNA rest = true := by
        simp only [validDNA, List.all_cons, Bool.and_eq_true] at hp
        exact hp.2
      by_cases hd : 0 < d
      · simp only [generate, if_pos hd]
        apply List.Nodup.append
        · exact (ih d hrest).map (cons_injective_char c)
        · rw [List.nodup_flatMap]
          constructor
          · intro b _
            exact (ih (d - 1) hrest).map (cons_injective_char b)
          · have hnd : (bases.filter (fun b => b != c)).Nodup :=
              List.Nodup.filter _ (by decide)
            refine hnd.imp ?_
            intro a b hab
            intro t ht1 ht2
            rcases List.mem_map.mp ht1 with ⟨s1, -, hs1⟩
            rcases List.mem_map.mp ht2 with ⟨s2, -, hs2⟩
            rw [← hs1] at hs2
            injection hs2 with h1 h2
            exact hab h1.symm
        · intro t ht1 ht2
          rcases List.mem_map.mp ht1 with ⟨s1, -, hs1⟩
          rcases List.mem_flatMap.mp ht2 with ⟨b, hb, ht3⟩
          rcases List.mem_map.mp ht3 with ⟨s2, -, hs2⟩
          rw [← hs1] at hs2
          injection hs2 with h1 h2
          exact bne_iff_ne.mp (List.mem_filter.mp hb).2 h1
      · simp only [generate, if_neg hd, List.append_nil]
        exact (ih d hrest).map (cons_injective_char c)

theorem length_flatMap_const {α β : Type} (f : α → List β) (n : Nat) :
    ∀ l : List α, (∀ x ∈ l, (f x).length = n) → (l.flatMap f).length = l.length * n := by
  intro l
  induction l with
  | nil => intro _; simp
  | cons x l ih =>
      intro h
      simp only [List.flatMap_cons, List.length_append, List.length_cons]
      rw [ih (fun y hy => h y (List.mem_cons_of_mem _ hy)),
        h x (List.mem_cons_self _ _)]
      ring

theorem filter_bases_length (c : Char) (hc : isBase c = true) :
    (bases.filter (fun b => b != c)).length = 3 := by
  simp only [isBase, Bool.or_eq_true, beq_iff_eq] at hc
  rcases hc with ((h | h) | h) | h <;> subst h <;> decide

theorem sum_choose_succ_mul (m e : Nat) :
    ∑ i in Finset.range (e + 2), (m + 1).choose i * 3 ^ i
      = ∑ i in Finset.range (e + 2), m.choose i * 3 ^ i
        + 3 * ∑ i in Finset.range (e + 1), m.choose i * 3 ^ i := by
  rw [Finset.sum_range_succ' (fun i => (m + 1).choose i * 3 ^ i) (e + 1),
    Finset.sum_range_succ' (fun i => m.choose i * 3 ^ i) (e + 1)]
  have key : ∀ i, (m + 1).choose (i + 1) * 3 ^ (i + 1)
      = m.choose (i + 1) * 3 ^ (i + 1) + 3 * (m.choose i * 3 ^ i) := by
    intro i
    rw [Nat.choose_succ_succ]
    ring
  rw [Finset.sum_congr rfl (fun i _ => key i), Finset.sum_add_distrib, Finset.mul_sum]
  simp only [Nat.choose_zero_right, pow_zero, mul_one]
  omega

theorem length_generate : ∀ (p : List Char) (d : Nat), validDNA p = true →
    (generate p d).length = ∑ i in Finset.range (d + 1), p.length.choose i * 3 ^ i := by
  intro p
  induction p with
  | nil =>
      intro d _
      have hsum : ∑ i in Finset.range (d + 1), (List.length ([] : List Char)).choose i * 3 ^ i
          = Nat.choose 0 0 * 3 ^ 0 := by
        apply Finset.sum_eq_single 0
        · intro b _ hb
          rcases Nat.exists_eq_succ_of_ne_zero hb with ⟨j, rfl⟩
          simp [Nat.choose_eq_zero_of_lt (Nat.succ_pos j)]
        · intro h
          exact absurd (Finset.mem_range.mpr (by omega)) h
      rw [hsum]
      simp [generate]
  | cons c rest ih =>
      intro d hp
      have hc : isBase c = true := by
        simp only [validDNA, List.all_cons, Bool.and_eq_true] at hp
        exact hp.1
      have hrest : validDNA rest = true := by
        simp only [validDNA, List.all_cons, Bool.and_eq_true] at hp
        exact hp.2
      by_cases hd : 0 < d
      · obtain ⟨e, rfl⟩ : ∃ e, d = e + 1 := ⟨d - 1, by omega⟩
        simp only [generate, if_pos hd, List.length_append, List.length_map]
        rw [length_flatMap_const _ ((generate rest e).length) _
          (fun b _ => by simp [List.length_map, Nat.add_sub_cancel]),
          filter_bases_length c hc, ih (e + 1) hrest, ih e hrest]
        simp only [List.length_cons]
        rw [sum_choose_succ_mul rest.length e]
      · have hd0 : d = 0 := by omega
        subst hd0
        simp only [generate, if_neg hd, List.append_nil, List.length_map]
        rw [ih 0 hrest]
        simp [Finset.sum_range_one]

/-- C5. `neighborhood p d` is exactly the set of equal-length DNA strings
within Hamming distance `d` of `p`; it contains `p`, is `{p}` for `d = 0`,
and has cardinality `Σ i ≤ d, C(k,i)·3^i`. -/
theorem neighborhood_spec (p : List Char) (d : Nat) (hp : validDNA p = true) :
    (∀ q : List Char, q ∈ neighborhood p d ↔
      q.length = p.length ∧ validDNA q = true ∧ hamming_distance p q ≤ d) ∧
    p ∈ neighborhood p d ∧
    neighborhood p 0 = {p} ∧
    (neighborhood p d).card = ∑ i in Finset.range (d + 1), p.length.choose i * 3 ^ i := by
  have hmem : ∀ (d' : Nat) (q : List Char), q ∈ neighborhood p d' ↔
      q.length = p.length ∧ validDNA q = true ∧ hamming_distance p q ≤ d' := by
    intro d' q
    rw [neighborhood, List.mem_toFinset]
    exact mem_generate p d' q hp
  refine ⟨hmem d, ?_, ?_, ?_⟩
  · exact (hmem d p).mpr ⟨rfl, hp, by rw [hamming_self]; omega⟩
  · ext q
    rw [hmem 0, Finset.mem_singleton]
    constructor
    · rintro ⟨h1, -, h3⟩
      exact ((hamming_eq_zero_iff p q h1.symm).mp (by omega)).symm
    · rintro rfl
      exact ⟨rfl, hp, by rw [hamming_self]⟩
  · rw [neighborhood, List.toFinset_card_of_nodup (nodup_generate p d hp)]
    exact length_generate p d hp

/-- Witness for C5 at `p = "AAA"`, `d = 1` (the claim's concrete case: the
neighborhood of AAA at distance 1 has exactly 10 members). -/
theorem neighborhood_spec_witness :
    validDNA ['A', 'A', 'A'] = true ∧
      ['A', 'A', 'A'] ∈ neighborhood ['A', 'A', 'A'] 1 ∧
      (neighborhood ['A', 'A', 'A'] 1).card
        = ∑ i in Finset.range 2, (Nat.choose 3 i) * 3 ^ i ∧
      (neighborhood ['A', 'A', 'A'] 1).card = 10 := by
  have h := neighborhood_spec ['A', 'A', 'A'] 1 (by decide)
  refine ⟨by decide, h.2.1, h.2.2.2, ?_⟩
  rw [h.2.2.2]
  decide

/-! ### C2: the exact rolling-window clump finder (`BetterClumpFinder.py`) -/

/-- Pointwise update of a function, modelling `array[j] = v`. -/
def upd {β : Type} (f : Nat → β) (j : Nat) (v : β) : Nat → β :=
  fun x => if x = j then v else f x

/-- State of `compute_frequencies_rolling` after `m` iterations of its loop
(`i = 1 .. m`): the frequency array and the current rolling index. -/
def cfrState (text : List Char) (k : Nat) : Nat → (Nat → Int) × Nat
  | 0 =>
      let c0 := patternToNumber (kmerAt text 0 k)
      (upd (fun _ => 0) c0 1, c0)
  | m + 1 =>
      let st := cfrState text k m
      let c := rollingNext st.2 k (text.getD (m + 1 + k - 1) 'A')
      (upd st.1 c (st.1 c + 1), c)

/-- `compute_frequencies_rolling` from `ComputeFrequencies.py` (also
`ComputeFrequenciesRolling` in `BetterClumpFinder.py`): frequency array of all
k-mers of `text`, built by one full encode then rolling updates. -/
def ComputeFrequenciesRolling (text : List Char) (k : Nat) : Nat → Int :=
  if text.length < k then fun _ => 0
  else (cfrState text k (text.length - k)).1

/-- Number of start positions `lo + q`, `q < len`, whose k-mer encodes to
index `j`. -/
def countIdx (s : List Char) (k lo len j : Nat) : Nat :=
  (List.range len).countP (fun q => patternToNumber (kmerAt s (lo + q) k) == j)

/-- Number of occurrences of pattern `p` at start positions `w + q`,
`q < L - k + 1` — the occurrence count of `p` inside the window starting
at `w`. -/
def countOccs (s : List Char) (k L w : Nat) (p : List Char) : Nat :=
  (List.range (L - k + 1)).countP (fun q => kmerAt s (w + q) k == p)

theorem countIdx_zero (s : List Char) (k lo j : Nat) : countIdx s k lo 0 j = 0 := rfl

theorem countIdx_succ_back (s : List Char) (k lo len j : Nat) :
    countIdx s k lo (len + 1) j
      = countIdx s k lo len j
        + (if patternToNumber (kmerAt s (lo + len) k) == j then 1 else 0) := by
  unfold countIdx
  rw [List.range_succ, List.countP_append]
  simp [List.countP_cons]

theorem countIdx_succ_front (s : List Char) (k lo j : Nat) : ∀ len,
    countIdx s k lo (len + 1) j
      = (if patternToNumber (kmerAt s lo k) == j then 1 else 0)
        + countIdx s k (lo + 1) len j := by
  intro len
  induction len with
  | zero =>
      rw [countIdx_succ_back]
      simp [countIdx_zero]
  | succ len ih =>
      rw [countIdx_succ_back, ih, countIdx_succ_back]
      have : lo + (len + 1) = lo + 1 + len := by omega
      rw [this]
      omega

theorem validDNA_kmerAt (s : List Char) (i k : Nat) (hs : validDNA s = true) :
    validDNA (kmerAt s i k) = true := by
  simp only [validDNA, List.all_eq_true] at *
  intro c hc
  exact hs c (List.drop_subset _ _ (List.take_subset _ _ hc))

theorem patternToNumber_inj (p q : List Char) (hp : validDNA p = true)
    (hq : validDNA q = true) (hl : p.length = q.length)
    (h : patternToNumber p = patternToNumber q) : p = q := by
  have h1 := numberToPattern_patternToNumber p hp
  have h2 := numberToPattern_patternToNumber q hq
  rw [← h1, ← h2, h, hl]

theorem kmerAt_take (s : List Char) (L p k : Nat) (h : p + k ≤ L) :
    kmerAt (s.take L) p k = kmerAt s p k := by
  unfold kmerAt
  rw [List.drop_take, List.take_take]
  congr 1
  omega

/-- The rolling index of `cfrState` always equals the full re-encoding of the
k-mer at the current position. -/
theorem cfrState_snd (text : List Char) (k : Nat) (hk : 1 ≤ k) : ∀ m,
    m + k ≤ text.length →
    (cfrState text k m).2 = patternToNumber (kmerAt text m k) := by
  intro m
  induction m with
  | zero => intro _; rfl
  | succ m ih =>
      intro hm
      show rollingNext (cfrState text k m).2 k (text.getD (m + 1 + k - 1) 'A')
        = patternToNumber (kmerAt text (m + 1) k)
      rw [ih (by omega)]
      exact (rolling_index_identity text k (m + 1) hk (by omega) hm).1

theorem cfrState_fst (text : List Char) (k : Nat) (hk : 1 ≤ k) : ∀ m,
    m + k ≤ text.length → ∀ j,
    (cfrState text k m).1 j = (countIdx text k 0 (m + 1) j : Int) := by
  intro m
  induction m with
  | zero =>
      intro _ j
      show upd (fun _ => 0) (patternToNumber (kmerAt text 0 k)) 1 j = _
      rw [countIdx_succ_back]
      simp only [countIdx_zero, Nat.zero_add, Nat.add_zero, upd]
      by_cases hj : j = patternToNumber (kmerAt text 0 k)
      · subst hj
        rw [if_pos rfl, if_pos (beq_self_eq_true _)]
        rfl
      · rw [if_neg hj, if_neg (fun h => hj (beq_iff_eq.mp h).symm)]
        rfl
  | succ m ih =>
      intro hm j
      have hsnd := cfrState_snd text k hk m (by omega)
      have hroll := (rolling_index_identity text k (m + 1) hk (by omega) hm).1
      simp only [Nat.add_sub_cancel] at hroll
      show upd (cfrState text k m).1
          (rollingNext (cfrState text k m).2 k (text.getD (m + 1 + k - 1) 'A'))
          ((cfrState text k m).1 (rollingNext (cfrState text k m).2 k
            (text.getD (m + 1 + k - 1) 'A')) + 1) j = _
      rw [hsnd, hroll, countIdx_succ_back]
      simp only [Nat.zero_add, upd]
      by_cases hj : j = patternToNumber (kmerAt text (m + 1) k)
      · subst hj
        rw [if_pos rfl, ih (by omega), if_pos (beq_self_eq_true _)]
        push_cast
        ring
      · rw [if_neg hj, ih (by omega),
          if_neg (fun h => hj (beq_iff_eq.mp h).symm)]
        push_cast
        ring

theorem ComputeFrequenciesRolling_eq (text : List Char) (k : Nat) (hk : 1 ≤ k)
    (hkn : k ≤ text.length) (j : Nat) :
    ComputeFrequenciesRolling text k j
      = (countIdx text k 0 (text.length - k + 1) j : Int) := by
  unfold ComputeFrequenciesRolling
  rw [if_neg (by omega)]
  exact cfrState_fst text k hk (text.length - k) (by omega) j

/-- State of `clumpFinder` from `BetterClumpFinder.py`: the window frequency
array, the clump marks, and the two rolling indices. -/
structure CFState where
  freq : Nat → Int
  marks : Nat → Bool
  indexStart : Nat
  indexEnd : Nat

/-- One iteration `i` of `clumpFinder`'s sliding loop: decrement the leaving
k-mer's count, roll both indices forward, increment the entering k-mer's
count, and mark it if its new count reaches `t`. -/
def clumpStep (s : List Char) (k L t : Nat) (i : Nat) (st : CFState) : CFState :=
  let f1 := upd st.freq st.indexStart (st.freq st.indexStart - 1)
  let is2 := rollingNext st.indexStart k (s.getD (i + k - 1) 'A')
  let ie2 := rollingNext st.indexEnd k (s.getD (i + L - 1) 'A')
  let f2 := upd f1 ie2 (f1 ie2 + 1)
  { freq := f2
    marks := if (t : Int) ≤ f2 ie2 then upd st.marks ie2 true else st.marks
    indexStart := is2
    indexEnd := ie2 }

/-- `clumpFinder`'s state before the sliding loop: frequencies of the first
window, marks of every index already at threshold, and the two encoded
indices. -/
def clumpInit (s : List Char) (k L t : Nat) : CFState :=
  let freq0 := ComputeFrequenciesRolling (s.take L) k
  { freq := freq0
    marks := fun j => decide ((t : Int) ≤ freq0 j)
    indexStart := patternToNumber (kmerAt s 0 k)
    indexEnd := patternToNumber (kmerAt s (L - k) k) }

/-- `clumpFinder`'s state after the first `m` iterations of the sliding
loop. -/
def clumpStates (s : List Char) (k L t : Nat) : Nat → CFState
  | 0 => clumpInit s k L t
  | m + 1 => clumpStep s k L t (m + 1) (clumpStates s k L t m)

/-- `clumpFinder` from `BetterClumpFinder.py` (parameters already parsed):
runs the full scan and decodes every marked index. -/
def clumpFinder (s : List Char) (k L t : Nat) : List (List Char) :=
  if s.length < L then []
  else
    ((List.range (4 ^ k)).filter
      (fun j => (clumpStates s k L t (s.length - L)).marks j)).map
      (fun j => numberToPattern j k)

theorem clumpStep_indexStart (s : List Char) (k L t i : Nat) (st : CFState) :
    (clumpStep s k L t i st).indexStart
      = rollingNext st.indexStart k (s.getD (i + k - 1) 'A') := rfl

theorem clumpStep_indexEnd (s : List Char) (k L t i : Nat) (st : CFState) :
    (clumpStep s k L t i st).indexEnd
      = rollingNext st.indexEnd k (s.getD (i + L - 1) 'A') := rfl

theorem clumpStep_freq (s : List Char) (k L t i : Nat) (st : CFState) (j : Nat) :
    (clumpStep s k L t i st).freq j
      = st.freq j - (if j = st.indexStart then 1 else 0)
        + (if j = rollingNext st.indexEnd k (s.getD (i + L - 1) 'A') then 1 else 0) := by
  simp only [clumpStep, upd]
  split_ifs <;> simp_all <;> omega

theorem clumpStep_marks (s : List Char) (k L t i : Nat) (st : CFState) (j : Nat) :
    ((clumpStep s k L t i st).marks j = true ↔
      (st.marks j = true ∨
        (j = rollingNext st.indexEnd k (s.getD (i + L - 1) 'A') ∧
          (t : Int) ≤ (clumpStep s k L t i st).freq j))) := by
  simp only [clumpStep, upd, ite_apply]
  split_ifs <;> simp_all

/-- The master invariant of `clumpFinder`'s scan: after `m` slides the two
rolling indices encode the window's boundary k-mers, the frequency array
holds the exact counts of the window starting at `m`, and an index is marked
iff its count reached `t` in some window seen so far. -/
theorem clumpStates_inv (s : List Char) (k L t : Nat) (hk : 1 ≤ k) (hkL : k ≤ L)
    (hLs : L ≤ s.length) : ∀ m, m ≤ s.length - L →
    (clumpStates s k L t m).indexStart = patternToNumber (kmerAt s m k) ∧
    (clumpStates s k L t m).indexEnd = patternToNumber (kmerAt s (m + L - k) k) ∧
    (∀ j, (clumpStates s k L t m).freq j = (countIdx s k m (L - k + 1) j : Int)) ∧
    (∀ j, ((clumpStates s k L t m).marks j = true ↔
      ∃ w, w ≤ m ∧ t ≤ countIdx s k w (L - k + 1) j)) := by
  intro m
  induction m with
  | zero =>
      intro _
      have hlen : (s.take L).length = L := by rw [List.length_take]; omega
      have hfreq0 : ∀ j, ComputeFrequenciesRolling (s.take L) k j
          = (countIdx s k 0 (L - k + 1) j : Int) := by
        intro j
        rw [ComputeFrequenciesRolling_eq (s.take L) k hk (by omega) j, hlen]
        congr 1
        unfold countIdx
        apply List.countP_congr
        intro q hq
        rw [List.mem_range] at hq
        rw [kmerAt_take s L (0 + q) k (by omega)]
      refine ⟨rfl, by rw [show 0 + L - k = L - k from by omega]; rfl, ?_, ?_⟩
      · intro j
        exact hfreq0 j
      · intro j
        show decide ((t : Int) ≤ ComputeFrequenciesRolling (s.take L) k j) = true ↔ _
        rw [decide_eq_true_eq, hfreq0 j]
        constructor
        · intro h
          exact ⟨0, Nat.le_refl 0, by exact_mod_cast h⟩
        · rintro ⟨w, hw, h⟩
          have hw0 : w = 0 := by omega
          subst hw0
          exact_mod_cast h
  | succ m ih =>
      intro hm1
      obtain ⟨h_is, h_ie, h_freq, h_marks⟩ := ih (by omega)
      have his2 : rollingNext (clumpStates s k L t m).indexStart k
          (s.getD (m + 1 + k - 1) 'A') = patternToNumber (kmerAt s (m + 1) k) := by
        rw [h_is]
        have h2 := (rolling_index_identity s k (m + 1) hk (by omega) (by omega)).1
        simpa only [Nat.add_sub_cancel] using h2
      have hie2 : rollingNext (clumpStates s k L t m).indexEnd k
          (s.getD (m + 1 + L - 1) 'A')
          = patternToNumber (kmerAt s (m + 1 + L - k) k) := by
        rw [h_ie]
        have h2 := (rolling_index_identity s k (m + 1 + L - k) hk (by omega) (by omega)).1
        rw [show m + 1 + L - k - 1 = m + L - k from by omega,
          show m + 1 + L - k + k - 1 = m + 1 + L - 1 from by omega] at h2
        exact h2
      -- the frequency invariant at m + 1
      have hfreq2 : ∀ j, (clumpStates s k L t (m + 1)).freq j
          = (countIdx s k (m + 1) (L - k + 1) j : Int) := by
        intro j
        show (clumpStep s k L t (m + 1) (clumpStates s k L t m)).freq j = _
        rw [clumpStep_freq, hie2, h_freq j, h_is]
        have hsplit1 := countIdx_succ_front s k m j (L - k)
        have hsplit2 := countIdx_succ_back s k (m + 1) (L - k) j
        rw [show m + 1 + (L - k) = m + 1 + L - k from by omega] at hsplit2
        by_cases e1 : j = patternToNumber (kmerAt s m k) <;>
          by_cases e2 : j = patternToNumber (kmerAt s (m + 1 + L - k) k)
        · rw [if_pos e1, if_pos e2]
          rw [if_pos (beq_iff_eq.mpr e1.symm)] at hsplit1
          rw [if_pos (beq_iff_eq.mpr e2.symm)] at hsplit2
          omega
        · rw [if_pos e1, if_neg e2]
          rw [if_pos (beq_iff_eq.mpr e1.symm)] at hsplit1
          rw [if_neg (fun h => e2 (beq_iff_eq.mp h).symm)] at hsplit2
          omega
        · rw [if_neg e1, if_pos e2]
          rw [if_neg (fun h => e1 (beq_iff_eq.mp h).symm)] at hsplit1
          rw [if_pos (beq_iff_eq.mpr e2.symm)] at hsplit2
          omega
        · rw [if_neg e1, if_neg e2]
          rw [if_neg (fun h => e1 (beq_iff_eq.mp h).symm)] at hsplit1
          rw [if_neg (fun h => e2 (beq_iff_eq.mp h).symm)] at hsplit2
          omega
      refine ⟨?_, ?_, hfreq2, ?_⟩
      · show (clumpStep s k L t (m + 1) (clumpStates s k L t m)).indexStart = _
        rw [clumpStep_indexStart]
        exact his2
      · show (clumpStep s k L t (m + 1) (clumpStates s k L t m)).indexEnd = _
        rw [clumpStep_indexEnd]
        exact hie2
      · intro j
        have hm2 := clumpStep_marks s k L t (m + 1) (clumpStates s k L t m) j
        show (clumpStep s k L t (m + 1) (clumpStates s k L t m)).marks j = true ↔ _
        rw [hm2, hie2, h_marks j]
        have hf2 := hfreq2 j
        constructor
        · rintro (⟨w, hw, hcnt⟩ | ⟨hj, hcnt⟩)
          · exact ⟨w, by omega, hcnt⟩
          · refine ⟨m + 1, Nat.le_refl _, ?_⟩
            have : (clumpStep s k L t (m + 1) (clumpStates s k L t m)).freq j
                = (countIdx s k (m + 1) (L - k + 1) j : Int) := hfreq2 j
            rw [this] at hcnt
            exact_mod_cast hcnt
        · rintro ⟨w, hw, hcnt⟩
          by_cases hw' : w ≤ m
          · exact Or.inl ⟨w, hw', hcnt⟩
          · have hwm : w = m + 1 := by omega
            subst hwm
            by_cases hold : t ≤ countIdx s k m (L - k + 1) j
            · exact Or.inl ⟨m, Nat.le_refl m, hold⟩
            · -- the count must have grown, so j is the entering k-mer's index
              have hsplit1 := countIdx_succ_front s k m j (L - k)
              have hsplit2 := countIdx_succ_back s k (m + 1) (L - k) j
              rw [show m + 1 + (L - k) = m + 1 + L - k from by omega] at hsplit2
              have hle : countIdx s k (m + 1) (L - k) j ≤ countIdx s k m (L - k + 1) j := by
                rw [hsplit1]
                split_ifs <;> omega
              have hj : j = patternToNumber (kmerAt s (m + 1 + L - k) k) := by
                by_contra hne
                rw [if_neg (fun h => hne (beq_iff_eq.mp h).symm)] at hsplit2
                omega
              refine Or.inr ⟨hj, ?_⟩
              have hh : (clumpStep s k L t (m + 1) (clumpStates s k L t m)).freq j
                  = (countIdx s k (m + 1) (L - k + 1) j : Int) := hfreq2 j
              rw [hh]
              exact_mod_cast hcnt

/-- Marks are monotone along the scan: once set, never cleared. -/
theorem clumpStates_marks_mono (s : List Char) (k L t : Nat) (j : Nat) :
    ∀ m m', m ≤ m' →
    (clumpStates s k L t m).marks j = true →
    (clumpStates s k L t m').marks j = true := by
  intro m m' h
  induction m' with
  | zero =>
      have hm0 : m = 0 := by omega
      subst hm0
      exact id
  | succ m' ih =>
      intro hmark
      by_cases he : m = m' + 1
      · subst he; exact hmark
      · have h2 : m ≤ m' := by omega
        exact (clumpStep_marks s k L t (m' + 1) (clumpStates s k L t m') j).mpr
          (Or.inl (ih h2 hmark))

/-- Counting by encoded index is the same as counting pattern occurrences,
for a valid pattern of length `k`. -/
theorem countIdx_eq_countOccs (s : List Char) (k L w : Nat) (p : List Char)
    (hs : validDNA s = true) (hp : validDNA p = true) (hlen : p.length = k)
    (hkL : k ≤ L) (hwL : w + L ≤ s.length) :
    countIdx s k w (L - k + 1) (patternToNumber p) = countOccs s k L w p := by
  unfold countIdx countOccs
  apply List.countP_congr
  intro q hq
  rw [List.mem_range] at hq
  have hkm : (kmerAt s (w + q) k).length = k := kmerAt_length s (w + q) k (by omega)
  have hkv : validDNA (kmerAt s (w + q) k) = true := validDNA_kmerAt s (w + q) k hs
  by_cases h : kmerAt s (w + q) k = p
  · rw [h, beq_self_eq_true, beq_self_eq_true]
  · have hne : patternToNumber (kmerAt s (w + q) k) ≠ patternToNumber p :=
      fun he => h (patternToNumber_inj _ _ hkv hp (by rw [hkm, hlen]) he)
    rw [beq_eq_false_iff_ne.mpr hne, beq_eq_false_iff_ne.mpr h]

/-- C2. The exact rolling-window counter returns exactly the k-mers whose
occurrence count in at least one length-`L` window reaches `t`; moreover a
mark, once set, persists to the end of the scan. -/
theorem clumpFinder_exact_spec (s : List Char) (k L t : Nat) (hs : validDNA s = true)
    (hk : 1 ≤ k) (hkL : k ≤ L) (hLs : L ≤ s.length) (ht : 1 ≤ t) :
    (∀ p : List Char, p ∈ clumpFinder s k L t ↔
      (p.length = k ∧ validDNA p = true ∧
        ∃ w, w ≤ s.length - L ∧ t ≤ countOccs s k L w p)) ∧
    (∀ j m m', m ≤ m' →
      (clumpStates s k L t m).marks j = true →
      (clumpStates s k L t m').marks j = true) := by
  refine ⟨?_, fun j m m' h => clumpStates_marks_mono s k L t j m m' h⟩
  intro p
  unfold clumpFinder
  rw [if_neg (by omega), List.mem_map]
  have hmarks := (clumpStates_inv s k L t hk hkL hLs (s.length - L) (Nat.le_refl _)).2.2.2
  constructor
  · rintro ⟨j, hj, rfl⟩
    rw [List.mem_filter, List.mem_range] at hj
    obtain ⟨hjlt, hjmark⟩ := hj
    obtain ⟨w, hw, hcnt⟩ := (hmarks j).mp hjmark
    refine ⟨numberToPattern_length j k, validDNA_numberToPattern j k, w, hw, ?_⟩
    rw [← countIdx_eq_countOccs s k L w _ hs (validDNA_numberToPattern j k)
      (numberToPattern_length j k) hkL (by omega),
      patternToNumber_numberToPattern k j hjlt]
    exact hcnt
  · rintro ⟨hlen, hval, w, hw, hcnt⟩
    have hjlt : patternToNumber p < 4 ^ k := by
      rw [← hlen]
      exact patternToNumber_lt p
    refine ⟨patternToNumber p, ?_, ?_⟩
    · rw [List.mem_filter, List.mem_range]
      refine ⟨hjlt, (hmarks _).mpr ⟨w, hw, ?_⟩⟩
      rw [countIdx_eq_countOccs s k L w p hs hval hlen hkL (by omega)]
      exact hcnt
    · rw [← hlen]
      exact numberToPattern_patternToNumber p hval

/-- Witness for C2 on `s = "AACG"`, `k = 1`, `L = 2`, `t = 2`. -/
theorem clumpFinder_exact_spec_witness :
    (validDNA ['A', 'A', 'C', 'G'] = true ∧ 1 ≤ 1 ∧ 1 ≤ 2 ∧
        2 ≤ (['A', 'A', 'C', 'G'] : List Char).length ∧ 1 ≤ 2) ∧
      (∀ p : List Char, p ∈ clumpFinder ['A', 'A', 'C', 'G'] 1 2 2 ↔
        (p.length = 1 ∧ validDNA p = true ∧
          ∃ w, w ≤ (['A', 'A', 'C', 'G'] : List Char).length - 2 ∧
            2 ≤ countOccs ['A', 'A', 'C', 'G'] 1 2 w p)) :=
  ⟨⟨by decide, by decide, by decide, by decide, by decide⟩,
    (clumpFinder_exact_spec ['A', 'A', 'C', 'G'] 1 2 2 (by decide) (by decide)
      (by decide) (by decide) (by decide)).1⟩

/-! ### C1/C6/C7: the approximate clump detector `find_clumps`
(`bio_utils.py`, equivalently `clumpFinder_with_mismatches_and_rc`).

The Python state is `freq_map[variant] = {'q': deque of (pos, is_exact),
'exact': int, 'var': int}` plus the insertion-once dict `clumps`.  Both maps
are embedded as total functions whose default value is exactly what the code
inserts on first touch (`{'q': deque(), 'exact': 0, 'var': 0}` resp. absence).
The per-occurrence loop `for variant in get_variants(kmer)` updates each
variant key independently, so it is embedded as a pointwise update guarded by
membership in the variant set; `deque.popleft()` on an empty queue raises in
Python, so removal is `Option`-valued and fails iff some variant's queue is
empty. -/

/-- A `freq_map` entry: the FIFO queue of live `(position, is_exact)`
contributions and the two running counters. -/
structure VEntry where
  q : List (Nat × Bool)
  exact : Int
  var : Int

/-- A clump record `(variant, first_pos, exact, var)`. -/
abbrev ClumpRecord := List Char × Nat × Int × Int

/-- State of `find_clumps`: the variant frequency map and the clump dict. -/
structure FCState where
  freq : List Char → VEntry
  clumps : List Char → Option ClumpRecord

/-- `get_variants(kmer)`: `neighborhood(kmer, d)`, unioned with
`neighborhood(reverse_complement(kmer), d)` when RC mode is on.  (The Python
memoisation does not change the value.)  As a list; membership is what the
set iteration uses. -/
def variantList (d : Nat) (use_rc : Bool) (km : List Char) : List (List Char) :=
  generate km d ++ (if use_rc then generate (reverse_complement km) d else [])

/-- The `add_kmer` body for one variant: append to the queue and bump the
matching counter. -/
def pushEntry (e : VEntry) (pos : Nat) (isExact : Bool) : VEntry :=
  { q := e.q ++ [(pos, isExact)]
    exact := if isExact then e.exact + 1 else e.exact
    var := if isExact then e.var else e.var + 1 }

/-- The `remove_kmer` body for one variant: pop the front of the queue and
decrement the matching counter. -/
def popEntry (e : VEntry) : VEntry :=
  { q := e.q.tail
    exact := if (e.q.headD (0, true)).2 then e.exact - 1 else e.exact
    var := if (e.q.headD (0, true)).2 then e.var else e.var - 1 }

/-- `add_kmer(kmer, pos)` from `find_clumps`: for every variant of the kmer,
append `(pos, is_exact)` and update counters; if the combined count reaches
`t` and the variant has no record yet, record
`(variant, front of queue, exact, var)`. -/
def addKmer (d : Nat) (use_rc : Bool) (t : Nat) (km : List Char) (pos : Nat)
    (st : FCState) : FCState :=
  let freq2 := fun v =>
    if v ∈ variantList d use_rc km then pushEntry (st.freq v) pos (v == km)
    else st.freq v
  { freq := freq2
    clumps := fun v =>
      if v ∈ variantList d use_rc km ∧ st.clumps v = none ∧
          (t : Int) ≤ (freq2 v).exact + (freq2 v).var then
        some (v, ((freq2 v).q.headD (0, true)).1, (freq2 v).exact, (freq2 v).var)
      else st.clumps v }

/-- `remove_kmer(kmer)` from `find_clumps`: pop the front of every variant's
queue; `popleft` on an empty deque raises, modelled as `none`. -/
def removeKmer (d : Nat) (use_rc : Bool) (km : List Char) (st : FCState) :
    Option FCState :=
  if (variantList d use_rc km).all (fun v => !(st.freq v).q.isEmpty) then
    some { freq := fun v =>
             if v ∈ variantList d use_rc km then popEntry (st.freq v) else st.freq v
           clumps := st.clumps }
  else none

/-- The empty maps `freq_map = {}` / `clumps = {}` (entries default on first
touch). -/
def fcInitState : FCState := ⟨fun _ => ⟨[], 0, 0⟩, fun _ => none⟩

/-- `find_clumps`'s first-window initialisation after the first `j` positions
(`for i in range(L - k + 1): add_kmer(sequence[i:i+k], i)`). -/
def fcInit (s : List Char) (k t d : Nat) (use_rc : Bool) : Nat → FCState
  | 0 => fcInitState
  | j + 1 => addKmer d use_rc t (kmerAt s j k) j (fcInit s k t d use_rc j)

/-- One slide iteration `i` of `find_clumps`: remove the leaving k-mer, add
the entering one at `idx_in = i + L - k`. -/
def fcSlide (s : List Char) (k L t d : Nat) (use_rc : Bool) (i : Nat)
    (st : FCState) : Option FCState :=
  (removeKmer d use_rc (kmerAt s (i - 1) k) st).map
    (addKmer d use_rc t (kmerAt s (i + L - k) k) (i + L - k))

/-- `find_clumps`'s state after the initial window plus `m` slides. -/
def fcStates (s : List Char) (k L t d : Nat) (use_rc : Bool) : Nat → Option FCState
  | 0 => some (fcInit s k t d use_rc (L - k + 1))
  | m + 1 => (fcStates s k L t d use_rc m).bind (fcSlide s k L t d use_rc (m + 1))

/-- `find_clumps(sequence, k, L, t, d, use_rc)` from `bio_utils.py`.  The
Python function returns `list(clumps.values())`; since the iteration order of
set-driven dict insertions is not part of the algorithm, the result is
modelled as the final `clumps` map itself (`none` encodes an uncaught
`IndexError` from `popleft`, shown unreachable below). -/
def find_clumps (s : List Char) (k L t d : Nat) (use_rc : Bool) :
    Option (List Char → Option ClumpRecord) :=
  if s.length < L then some (fun _ => none)
  else (fcStates s k L t d use_rc (s.length - L)).map FCState.clumps

/-! Spec-side descriptions of the reachable states. -/

/-- The queue any correct run must hold for variant `v` when the live
positions are `lo, …, lo+len-1`: the contributing positions in ascending
order, each tagged with exactness. -/
def qSpec (s : List Char) (k d : Nat) (use_rc : Bool) (lo len : Nat)
    (v : List Char) : List (Nat × Bool) :=
  (List.range' lo len).filterMap (fun p =>
    if v ∈ variantList d use_rc (kmerAt s p k) then some (p, v == kmerAt s p k)
    else none)

/-- Number of positions among `lo, …, lo+len-1` whose k-mer has `v` as a
variant — the combined (exact + approximate) count of `v`. -/
def contribCount (s : List Char) (k d : Nat) (use_rc : Bool) (lo len : Nat)
    (v : List Char) : Nat :=
  (List.range' lo len).countP
    (fun p => decide (v ∈ variantList d use_rc (kmerAt s p k)))

/-- The record built from a queue snapshot: pattern, front position, and the
two counter values the queue determines. -/
def mkRecord (v : List Char) (q : List (Nat × Bool)) : ClumpRecord :=
  (v, (q.headD (0, true)).1, (q.countP (fun e => e.2) : Int),
    (q.countP (fun e => !e.2) : Int))

/-- The record the initialisation phase produces for `v` after `j` positions:
`some` iff the running count first reached `t` at one of those positions,
with the queue snapshot taken at that moment. -/
def recSpecInit (s : List Char) (k t d : Nat) (use_rc : Bool) (j : Nat)
    (v : List Char) : Option ClumpRecord :=
  match (List.range j).find?
      (fun i => decide (t ≤ contribCount s k d use_rc 0 (i + 1) v)) with
  | some i => some (mkRecord v (qSpec s k d use_rc 0 (i + 1) v))
  | none => none

/-- The record the full scan holds for `v` after `m` slides: the
initialisation record if the threshold was crossed there, else the snapshot
of the first slide window whose count reached `t`. -/
def recSpec (s : List Char) (k L t d : Nat) (use_rc : Bool) (m : Nat)
    (v : List Char) : Option ClumpRecord :=
  match recSpecInit s k t d use_rc (L - k + 1) v with
  | some r => some r
  | none =>
      match (List.range m).find?
          (fun w => decide (t ≤ contribCount s k d use_rc (w + 1) (L - k + 1) v)) with
      | some w => some (mkRecord v (qSpec s k d use_rc (w + 1) (L - k + 1) v))
      | none => none

/-- The brute-force per-window count of the claim: occurrences within Hamming
distance `d` of the candidate (or, in RC mode, of its reverse complement). -/
def bruteCount (s : List Char) (k L d : Nat) (use_rc : Bool) (w : Nat)
    (v : List Char) : Nat :=
  (List.range (L - k + 1)).countP (fun q =>
    decide (hamming_distance (kmerAt s (w + q) k) v ≤ d) ||
      (use_rc && decide (hamming_distance (kmerAt s (w + q) k) (reverse_complement v) ≤ d)))

/-! Decomposition lemmas for the spec-side queue and count. -/

theorem qSpec_zero (s : List Char) (k d : Nat) (use_rc : Bool) (lo : Nat)
    (v : List Char) : qSpec s k d use_rc lo 0 v = [] := rfl

theorem qSpec_concat (s : List Char) (k d : Nat) (use_rc : Bool) (lo len : Nat)
    (v : List Char) :
    qSpec s k d use_rc lo (len + 1) v
      = qSpec s k d use_rc lo len v ++
        (if v ∈ variantList d use_rc (kmerAt s (lo + len) k) then
          [(lo + len, v == kmerAt s (lo + len) k)] else []) := by
  unfold qSpec
  rw [List.range'_1_concat, List.filterMap_append]
  congr 1
  by_cases h : v ∈ variantList d use_rc (kmerAt s (lo + len) k) <;>
    simp [List.filterMap, h]

theorem qSpec_cons (s : List Char) (k d : Nat) (use_rc : Bool) (lo len : Nat)
    (v : List Char) :
    qSpec s k d use_rc lo (len + 1) v
      = (if v ∈ variantList d use_rc (kmerAt s lo k) then
          [(lo, v == kmerAt s lo k)] else []) ++ qSpec s k d use_rc (lo + 1) len v := by
  unfold qSpec
  rw [List.range'_succ]
  by_cases h : v ∈ variantList d use_rc (kmerAt s lo k) <;>
    simp [List.filterMap_cons, h]

theorem contribCount_zero (s : List Char) (k d : Nat) (use_rc : Bool) (lo : Nat)
    (v : List Char) : contribCount s k d use_rc lo 0 v = 0 := rfl

theorem contribCount_concat (s : List Char) (k d : Nat) (use_rc : Bool)
    (lo len : Nat) (v : List Char) :
    contribCount s k d use_rc lo (len + 1) v
      = contribCount s k d use_rc lo len v
        + (if v ∈ variantList d use_rc (kmerAt s (lo + len) k) then 1 else 0) := by
  unfold contribCount
  rw [List.range'_1_concat, List.countP_append]
  by_cases h : v ∈ variantList d use_rc (kmerAt s (lo + len) k) <;>
    simp [List.countP_cons, h]

theorem contribCount_cons (s : List Char) (k d : Nat) (use_rc : Bool)
    (lo len : Nat) (v : List Char) :
    contribCount s k d use_rc lo (len + 1) v
      = (if v ∈ variantList d use_rc (kmerAt s lo k) then 1 else 0)
        + contribCount s k d use_rc (lo + 1) len v := by
  unfold contribCount
  rw [List.range'_succ]
  by_cases h : v ∈ variantList d use_rc (kmerAt s lo k) <;>
    simp [List.countP_cons, h, Nat.add_comm]

theorem qSpec_length (s : List Char) (k d : Nat) (use_rc : Bool) (lo len : Nat)
    (v : List Char) :
    (qSpec s k d use_rc lo len v).length = contribCount s k d use_rc lo len v := by
  unfold qSpec contribCount
  rw [List.length_filterMap_eq_countP]
  apply List.countP_congr
  intro p _
  by_cases h : v ∈ variantList d use_rc (kmerAt s p k) <;> simp [h]

theorem countP_flags_add (l : List (Nat × Bool)) :
    l.countP (fun e => e.2) + l.countP (fun e => !e.2) = l.length := by
  induction l with
  | nil => rfl
  | cons e l ih =>
      rw [List.countP_cons, List.countP_cons, List.length_cons]
      cases he : e.2 <;> simp [he] <;> omega

/-- The frequency-map invariant at live positions `lo, …, lo + len - 1`:
every variant's queue is its spec queue and the counters count its flags. -/
def freqInv (s : List Char) (k d : Nat) (use_rc : Bool) (lo len : Nat)
    (st : FCState) : Prop :=
  ∀ v, (st.freq v).q = qSpec s k d use_rc lo len v ∧
    (st.freq v).exact = ((qSpec s k d use_rc lo len v).countP (fun e => e.2) : Int) ∧
    (st.freq v).var = ((qSpec s k d use_rc lo len v).countP (fun e => !e.2) : Int)

theorem fcInitState_freqInv (s : List Char) (k d : Nat) (use_rc : Bool) :
    freqInv s k d use_rc 0 0 fcInitState := by
  intro v
  refine ⟨rfl, rfl, rfl⟩

theorem addKmer_freq_apply (d t : Nat) (use_rc : Bool) (km : List Char)
    (pos : Nat) (st : FCState) (v : List Char) :
    (addKmer d use_rc t km pos st).freq v
      = if v ∈ variantList d use_rc km then pushEntry (st.freq v) pos (v == km)
        else st.freq v := rfl

theorem addKmer_freqInv (s : List Char) (k d t : Nat) (use_rc : Bool)
    (lo len : Nat) (km : List Char) (pos : Nat) (st : FCState)
    (hkm : km = kmerAt s (lo + len) k) (hpos : pos = lo + len)
    (h : freqInv s k d use_rc lo len st) :
    freqInv s k d use_rc lo (len + 1) (addKmer d use_rc t km pos st) := by
  intro v
  obtain ⟨hq, he, hv⟩ := h v
  subst hkm hpos
  rw [addKmer_freq_apply, qSpec_concat]
  by_cases hmem : v ∈ variantList d use_rc (kmerAt s (lo + len) k)
  · rw [if_pos hmem, if_pos hmem]
    simp only [pushEntry]
    refine ⟨by rw [hq], ?_, ?_⟩
    · rw [List.countP_append, he]
      cases hb : (v == kmerAt s (lo + len) k) <;>
        · simp only [hb, List.countP_cons, List.countP_nil, if_true, if_false,
            Bool.false_eq_true, decide_True, decide_False]
          push_cast
          ring
    · rw [List.countP_append, hv]
      cases hb : (v == kmerAt s (lo + len) k) <;>
        · simp only [hb, List.countP_cons, List.countP_nil, if_true, if_false,
            Bool.not_false, Bool.not_true, Bool.false_eq_true, decide_True,
            decide_False]
          push_cast
          ring
  · rw [if_neg hmem, if_neg hmem, List.append_nil]
    exact ⟨hq, he, hv⟩

theorem popEntry_cons (pos : Nat) (b : Bool) (rest : List (Nat × Bool))
    (e : VEntry) (hq : e.q = (pos, b) :: rest) :
    (popEntry e).q = rest ∧
    (popEntry e).exact = (if b then e.exact - 1 else e.exact) ∧
    (popEntry e).var = (if b then e.var else e.var - 1) := by
  refine ⟨?_, ?_, ?_⟩ <;>
    simp only [popEntry, hq, List.tail_cons, List.headD_cons]

theorem removeKmer_ok (s : List Char) (k d : Nat) (use_rc : Bool) (lo len : Nat)
    (st : FCState) (h : freqInv s k d use_rc lo (len + 1) st) :
    ∃ st', removeKmer d use_rc (kmerAt s lo k) st = some st' ∧
      st'.clumps = st.clumps ∧ freqInv s k d use_rc (lo + 1) len st' := by
  have hguard : (variantList d use_rc (kmerAt s lo k)).all
      (fun v => !(st.freq v).q.isEmpty) = true := by
    rw [List.all_eq_true]
    intro v hvmem
    rw [(h v).1, qSpec_cons, if_pos hvmem]
    simp
  refine ⟨{ freq := fun v =>
              if v ∈ variantList d use_rc (kmerAt s lo k) then popEntry (st.freq v)
              else st.freq v
            clumps := st.clumps }, ?_, rfl, ?_⟩
  · rw [removeKmer, if_pos hguard]
  intro v
  obtain ⟨hq, he, hv⟩ := h v
  show (if v ∈ variantList d use_rc (kmerAt s lo k) then popEntry (st.freq v)
      else st.freq v).q = _ ∧
    (if v ∈ variantList d use_rc (kmerAt s lo k) then popEntry (st.freq v)
      else st.freq v).exact = _ ∧
    (if v ∈ variantList d use_rc (kmerAt s lo k) then popEntry (st.freq v)
      else st.freq v).var = _
  by_cases hmem : v ∈ variantList d use_rc (kmerAt s lo k)
  · rw [if_pos hmem]
    have hqv : (st.freq v).q
        = (lo, v == kmerAt s lo k) :: qSpec s k d use_rc (lo + 1) len v := by
      rw [hq, qSpec_cons, if_pos hmem]
      rfl
    have hcount : qSpec s k d use_rc lo (len + 1) v
        = (lo, v == kmerAt s lo k) :: qSpec s k d use_rc (lo + 1) len v := by
      rw [qSpec_cons, if_pos hmem]
      rfl
    rw [hcount] at he hv
    obtain ⟨hpq, hpe, hpv⟩ := popEntry_cons lo (v == kmerAt s lo k) _ _ hqv
    refine ⟨hpq, ?_, ?_⟩
    · rw [hpe, he]
      cases hb : (v == kmerAt s lo k) <;>
        · simp only [hb, List.countP_cons, if_true, if_false, Bool.false_eq_true,
            decide_True, decide_False]
          push_cast
          ring
    · rw [hpv, hv]
      cases hb : (v == kmerAt s lo k) <;>
        · simp only [hb, List.countP_cons, if_true, if_false, Bool.not_false,
            Bool.not_true, Bool.false_eq_true, decide_True, decide_False]
          push_cast
          ring
  · rw [if_neg hmem]
    have hqv : qSpec s k d use_rc lo (len + 1) v
        = qSpec s k d use_rc (lo + 1) len v := by
      rw [qSpec_cons, if_neg hmem, List.nil_append]
    rw [hqv] at hq he hv
    exact ⟨hq, he, hv⟩

theorem addKmer_clumps_apply (d t : Nat) (use_rc : Bool) (km : List Char)
    (pos : Nat) (st : FCState) (v : List Char) :
    (addKmer d use_rc t km pos st).clumps v
      = if v ∈ variantList d use_rc km ∧ st.clumps v = none ∧
            (t : Int) ≤ ((addKmer d use_rc t km pos st).freq v).exact
              + ((addKmer d use_rc t km pos st).freq v).var then
          some (v, (((addKmer d use_rc t km pos st).freq v).q.headD (0, true)).1,
            ((addKmer d use_rc t km pos st).freq v).exact,
            ((addKmer d use_rc t km pos st).freq v).var)
        else st.clumps v := rfl

theorem recSpecInit_zero (s : List Char) (k t d : Nat) (use_rc : Bool)
    (v : List Char) : recSpecInit s k t d use_rc 0 v = none := rfl

theorem recSpecInit_succ (s : List Char) (k t d : Nat) (use_rc : Bool)
    (j : Nat) (v : List Char) :
    recSpecInit s k t d use_rc (j + 1) v
      = match recSpecInit s k t d use_rc j v with
        | some r => some r
        | none =>
            if t ≤ contribCount s k d use_rc 0 (j + 1) v then
              some (mkRecord v (qSpec s k d use_rc 0 (j + 1) v))
            else none := by
  unfold recSpecInit
  rw [List.range_succ, List.find?_append]
  cases hfind : (List.range j).find?
      (fun i => decide (t ≤ contribCount s k d use_rc 0 (i + 1) v)) with
  | some i => rfl
  | none =>
      rw [Option.none_or]
      by_cases hc : t ≤ contribCount s k d use_rc 0 (j + 1) v
      · rw [List.find?_cons_of_pos _ (by simpa using hc)]
        rw [if_pos hc]
      · rw [List.find?_cons_of_neg _ (by simpa using hc)]
        rw [if_neg hc]
        rfl

theorem recSpecInit_none_lt (s : List Char) (k t d : Nat) (use_rc : Bool)
    (ht : 1 ≤ t) (j : Nat) (v : List Char)
    (h : recSpecInit s k t d use_rc j v = none) :
    contribCount s k d use_rc 0 j v < t := by
  cases j with
  | zero => rw [contribCount_zero]; omega
  | succ i =>
      unfold recSpecInit at h
      cases hfind : (List.range (i + 1)).find?
          (fun x => decide (t ≤ contribCount s k d use_rc 0 (x + 1) v)) with
      | some r => rw [hfind] at h; exact Option.noConfusion h
      | none =>
          have hall := List.find?_eq_none.mp hfind i (List.mem_range.mpr (by omega))
          simp only [decide_eq_true_eq] at hall
          omega

theorem addKmer_clumpsInit (s : List Char) (k t d : Nat) (use_rc : Bool)
    (j : Nat) (ht : 1 ≤ t) (st : FCState)
    (hfreq : freqInv s k d use_rc 0 j st)
    (hclumps : ∀ v, st.clumps v = recSpecInit s k t d use_rc j v) :
    ∀ v, (addKmer d use_rc t (kmerAt s j k) j st).clumps v
      = recSpecInit s k t d use_rc (j + 1) v := by
  intro v
  have hfreq' := addKmer_freqInv s k d t use_rc 0 j (kmerAt s j k) j st
    (by rw [Nat.zero_add]) (by rw [Nat.zero_add]) hfreq
  obtain ⟨hq', he', hv'⟩ := hfreq' v
  have hcomb : ((addKmer d use_rc t (kmerAt s j k) j st).freq v).exact
      + ((addKmer d use_rc t (kmerAt s j k) j st).freq v).var
      = (contribCount s k d use_rc 0 (j + 1) v : Int) := by
    rw [he', hv', ← Nat.cast_add, countP_flags_add, qSpec_length]
  rw [addKmer_clumps_apply, hclumps v, recSpecInit_succ]
  cases hold : recSpecInit s k t d use_rc j v with
  | some r =>
      show _ = some r
      rw [if_neg (by rintro ⟨-, h2, -⟩; exact Option.noConfusion h2)]
  | none =>
      show _ = (if t ≤ contribCount s k d use_rc 0 (j + 1) v then
        some (mkRecord v (qSpec s k d use_rc 0 (j + 1) v)) else none)
      by_cases hmem : v ∈ variantList d use_rc (kmerAt s j k)
      · by_cases hth : (t : Int) ≤ (contribCount s k d use_rc 0 (j + 1) v : Int)
        · rw [if_pos ⟨hmem, rfl, by rw [hcomb]; exact hth⟩,
            if_pos (by exact_mod_cast hth)]
          unfold mkRecord
          rw [hq', he', hv']
        · rw [if_neg (by rintro ⟨-, -, h3⟩; rw [hcomb] at h3; exact hth h3),
            if_neg (fun hc => hth (by exact_mod_cast hc))]
      · rw [if_neg (by rintro ⟨h1, -, -⟩; exact hmem h1)]
        have hlt : contribCount s k d use_rc 0 j v < t :=
          recSpecInit_none_lt s k t d use_rc ht j v hold
        have heq : contribCount s k d use_rc 0 (j + 1) v
            = contribCount s k d use_rc 0 j v := by
          have h1 := contribCount_concat s k d use_rc 0 j v
          rw [Nat.zero_add] at h1
          rw [h1, if_neg hmem]
          omega
        rw [if_neg (by omega)]

theorem recSpec_zero (s : List Char) (k L t d : Nat) (use_rc : Bool)
    (v : List Char) :
    recSpec s k L t d use_rc 0 v = recSpecInit s k t d use_rc (L - k + 1) v := by
  unfold recSpec
  cases h : recSpecInit s k t d use_rc (L - k + 1) v <;> rfl

theorem recSpec_succ (s : List Char) (k L t d : Nat) (use_rc : Bool)
    (m : Nat) (v : List Char) :
    recSpec s k L t d use_rc (m + 1) v
      = match recSpec s k L t d use_rc m v with
        | some r => some r
        | none =>
            if t ≤ contribCount s k d use_rc (m + 1) (L - k + 1) v then
              some (mkRecord v (qSpec s k d use_rc (m + 1) (L - k + 1) v))
            else none := by
  unfold recSpec
  cases hinit : recSpecInit s k t d use_rc (L - k + 1) v with
  | some r => rfl
  | none =>
      rw [List.range_succ, List.find?_append]
      cases hfind : (List.range m).find?
          (fun w => decide (t ≤ contribCount s k d use_rc (w + 1) (L - k + 1) v)) with
      | some w => rfl
      | none =>
          rw [Option.none_or]
          by_cases hc : t ≤ contribCount s k d use_rc (m + 1) (L - k + 1) v
          · rw [List.find?_cons_of_pos _ (by simpa using hc)]
            rw [if_pos hc]
          · rw [List.find?_cons_of_neg _ (by simpa using hc)]
            rw [if_neg hc]
            rfl

theorem recSpec_none_lt (s : List Char) (k L t d : Nat) (use_rc : Bool)
    (ht : 1 ≤ t) (m : Nat) (v : List Char)
    (h : recSpec s k L t d use_rc m v = none) :
    ∀ w, w ≤ m → contribCount s k d use_rc w (L - k + 1) v < t := by
  intro w hw
  unfold recSpec at h
  cases hinit : recSpecInit s k t d use_rc (L - k + 1) v with
  | some r => rw [hinit] at h; exact Option.noConfusion h
  | none =>
      rw [hinit] at h
      cases w with
      | zero => exact recSpecInit_none_lt s k t d use_rc ht (L - k + 1) v hinit
      | succ w' =>
          cases hfind : (List.range m).find?
              (fun x => decide (t ≤ contribCount s k d use_rc (x + 1) (L - k + 1) v)) with
          | some r => rw [hfind] at h; exact Option.noConfusion h
          | none =>
              have hall := List.find?_eq_none.mp hfind w'
                (List.mem_range.mpr (by omega))
              simp only [decide_eq_true_eq] at hall
              omega

theorem recSpec_mono (s : List Char) (k L t d : Nat) (use_rc : Bool)
    (m m' : Nat) (v : List Char) (r : ClumpRecord) (hm : m ≤ m')
    (h : recSpec s k L t d use_rc m v = some r) :
    recSpec s k L t d use_rc m' v = some r := by
  induction m' with
  | zero =>
      have : m = 0 := by omega
      subst this
      exact h
  | succ m'' ih =>
      by_cases he : m = m'' + 1
      · subst he; exact h
      · have h2 := ih (by omega)
        rw [recSpec_succ, h2]

theorem addKmer_clumpsSlide (s : List Char) (k L t d : Nat) (use_rc : Bool)
    (m : Nat) (ht : 1 ≤ t) (hkL : k ≤ L) (st : FCState)
    (hfreq : freqInv s k d use_rc (m + 1) (L - k) st)
    (hclumps : ∀ v, st.clumps v = recSpec s k L t d use_rc m v) :
    ∀ v, (addKmer d use_rc t (kmerAt s (m + 1 + L - k) k) (m + 1 + L - k) st).clumps v
      = recSpec s k L t d use_rc (m + 1) v := by
  intro v
  have hkm : kmerAt s (m + 1 + L - k) k = kmerAt s ((m + 1) + (L - k)) k := by
    rw [show (m + 1) + (L - k) = m + 1 + L - k from by omega]
  have hfreq' := addKmer_freqInv s k d t use_rc (m + 1) (L - k)
    (kmerAt s (m + 1 + L - k) k) (m + 1 + L - k) st hkm (by omega) hfreq
  obtain ⟨hq', he', hv'⟩ := hfreq' v
  have hcomb : ((addKmer d use_rc t (kmerAt s (m + 1 + L - k) k) (m + 1 + L - k) st).freq v).exact
      + ((addKmer d use_rc t (kmerAt s (m + 1 + L - k) k) (m + 1 + L - k) st).freq v).var
      = (contribCount s k d use_rc (m + 1) (L - k + 1) v : Int) := by
    rw [he', hv', ← Nat.cast_add, countP_flags_add, qSpec_length]
  rw [addKmer_clumps_apply, hclumps v, recSpec_succ]
  cases hold : recSpec s k L t d use_rc m v with
  | some r =>
      show _ = some r
      rw [if_neg (by rintro ⟨-, h2, -⟩; exact Option.noConfusion h2)]
  | none =>
      show _ = (if t ≤ contribCount s k d use_rc (m + 1) (L - k + 1) v then
        some (mkRecord v (qSpec s k d use_rc (m + 1) (L - k + 1) v)) else none)
      by_cases hmem : v ∈ variantList d use_rc (kmerAt s (m + 1 + L - k) k)
      · by_cases hth : (t : Int) ≤ (contribCount s k d use_rc (m + 1) (L - k + 1) v : Int)
        · rw [if_pos ⟨hmem, rfl, by rw [hcomb]; exact hth⟩,
            if_pos (by exact_mod_cast hth)]
          unfold mkRecord
          rw [hq', he', hv']
        · rw [if_neg (by rintro ⟨-, -, h3⟩; rw [hcomb] at h3; exact hth h3),
            if_neg (fun hc => hth (by exact_mod_cast hc))]
      · rw [if_neg (by rintro ⟨h1, -, -⟩; exact hmem h1)]
        have hlt : contribCount s k d use_rc m (L - k + 1) v < t :=
          recSpec_none_lt s k L t d use_rc ht m v hold m (Nat.le_refl m)
        have h1 := contribCount_concat s k d use_rc (m + 1) (L - k) v
        rw [← hkm, if_neg hmem] at h1
        have h2 := contribCount_cons s k d use_rc m (L - k) v
        rw [if_neg (by omega)]

theorem fcInit_inv (s : List Char) (k t d : Nat) (use_rc : Bool) (ht : 1 ≤ t) :
    ∀ j, freqInv s k d use_rc 0 j (fcInit s k t d use_rc j) ∧
      (∀ v, (fcInit s k t d use_rc j).clumps v = recSpecInit s k t d use_rc j v) := by
  intro j
  induction j with
  | zero => exact ⟨fcInitState_freqInv s k d use_rc, fun v => rfl⟩
  | succ j ih =>
      refine ⟨?_, ?_⟩
      · exact addKmer_freqInv s k d t use_rc 0 j _ _ _ (by rw [Nat.zero_add])
          (by rw [Nat.zero_add]) ih.1
      · exact addKmer_clumpsInit s k t d use_rc j ht _ ih.1 ih.2

/-- The master invariant of `find_clumps`: every prefix of the scan succeeds
(no queue underflow), the frequency map matches the spec queues of the
current window, and the clump dict is exactly `recSpec`. -/
theorem fcStates_inv (s : List Char) (k L t d : Nat) (use_rc : Bool)
    (hk : 1 ≤ k) (hkL : k ≤ L) (hLs : L ≤ s.length) (ht : 1 ≤ t) :
    ∀ m, m ≤ s.length - L →
    ∃ st, fcStates s k L t d use_rc m = some st ∧
      freqInv s k d use_rc m (L - k + 1) st ∧
      (∀ v, st.clumps v = recSpec s k L t d use_rc m v) := by
  intro m
  induction m with
  | zero =>
      intro _
      refine ⟨fcInit s k t d use_rc (L - k + 1), rfl,
        (fcInit_inv s k t d use_rc ht (L - k + 1)).1, ?_⟩
      intro v
      rw [(fcInit_inv s k t d use_rc ht (L - k + 1)).2 v, recSpec_zero]
  | succ m ih =>
      intro hm1
      obtain ⟨st, hst, hfreq, hclumps⟩ := ih (by omega)
      obtain ⟨st2, hst2, hcl2, hfreq2⟩ := removeKmer_ok s k d use_rc m (L - k) st hfreq
      refine ⟨addKmer d use_rc t (kmerAt s (m + 1 + L - k) k) (m + 1 + L - k) st2,
        ?_, ?_, ?_⟩
      · show (fcStates s k L t d use_rc m).bind (fcSlide s k L t d use_rc (m + 1)) = _
        rw [hst]
        show fcSlide s k L t d use_rc (m + 1) st = _
        unfold fcSlide
        rw [show m + 1 - 1 = m from by omega, hst2]
        rfl
      · exact addKmer_freqInv s k d t use_rc (m + 1) (L - k) _ _ _
          (by rw [show (m + 1) + (L - k) = m + 1 + L - k from by omega]) (by omega)
          hfreq2
      · exact addKmer_clumpsSlide s k L t d use_rc m ht hkL st2 hfreq2
          (fun v => (congrFun hcl2 v).trans (hclumps v))

theorem isBase_complement (c : Char) (h : isBase c = true) :
    isBase (complement c) = true := by
  simp only [isBase, Bool.or_eq_true, beq_iff_eq] at h
  rcases h with ((h | h) | h) | h <;> subst h <;> decide

theorem validDNA_reverse_complement (p : List Char) (hp : validDNA p = true) :
    validDNA (reverse_complement p) = true := by
  simp only [validDNA, reverse_complement, List.all_eq_true, List.mem_reverse,
    List.mem_map] at *
  rintro c ⟨a, ha, rfl⟩
  exact isBase_complement a (hp a ha)

/-- Membership in the variant set, characterised by Hamming distance: `v` is
a variant of `km` iff it is an equal-length DNA string within distance `d` of
`km` or (in RC mode) of `km`'s reverse complement — equivalently, iff `km` is
within distance `d` of `v` or of `v`'s reverse complement. -/
theorem mem_variantList_iff (d : Nat) (use_rc : Bool) (km v : List Char)
    (hkm : validDNA km = true) :
    v ∈ variantList d use_rc km ↔
      (v.length = km.length ∧ validDNA v = true ∧
        (hamming_distance km v ≤ d ∨
          (use_rc = true ∧ hamming_distance km (reverse_complement v) ≤ d))) := by
  unfold variantList
  rw [List.mem_append]
  cases use_rc with
  | false =>
      simp only [if_neg (by decide : ¬ (false = true)), List.not_mem_nil, or_false]
      rw [mem_generate km d v hkm]
      constructor
      · rintro ⟨h1, h2, h3⟩
        exact ⟨h1, h2, Or.inl h3⟩
      · rintro ⟨h1, h2, h3 | ⟨h4, -⟩⟩
        · exact ⟨h1, h2, h3⟩
        · exact absurd h4 (by decide)
  | true =>
      rw [if_pos rfl, mem_generate km d v hkm,
        mem_generate (reverse_complement km) d v (validDNA_reverse_complement km hkm)]
      constructor
      · rintro (⟨h1, h2, h3⟩ | ⟨h1, h2, h3⟩)
        · exact ⟨h1, h2, Or.inl h3⟩
        · rw [reverse_complement_length] at h1
          refine ⟨h1, h2, Or.inr ⟨rfl, ?_⟩⟩
          rwa [← hamming_reverse_complement_swap km v (by rw [h1])]
      · rintro ⟨h1, h2, h3 | ⟨-, h4⟩⟩
        · exact Or.inl ⟨h1, h2, h3⟩
        · refine Or.inr ⟨by rw [reverse_complement_length, h1], h2, ?_⟩
          rwa [hamming_reverse_complement_swap km v (by rw [h1])]

theorem contribCount_eq_bruteCount (s : List Char) (k L d : Nat) (use_rc : Bool)
    (w : Nat) (v : List Char) (hs : validDNA s = true) (hv : validDNA v = true)
    (hlen : v.length = k) (hkL : k ≤ L) (hw : w + L ≤ s.length) :
    contribCount s k d use_rc w (L - k + 1) v = bruteCount s k L d use_rc w v := by
  unfold contribCount bruteCount
  rw [List.range'_eq_map_range, List.countP_map]
  apply List.countP_congr
  intro q hq
  rw [List.mem_range] at hq
  have hkm_len : (kmerAt s (w + q) k).length = k :=
    kmerAt_length s (w + q) k (by omega)
  have hkm_val := validDNA_kmerAt s (w + q) k hs
  have hiff : (v ∈ variantList d use_rc (kmerAt s (w + q) k)) ↔
      (hamming_distance (kmerAt s (w + q) k) v ≤ d ∨
        (use_rc = true ∧
          hamming_distance (kmerAt s (w + q) k) (reverse_complement v) ≤ d)) := by
    rw [mem_variantList_iff d use_rc _ v hkm_val]
    constructor
    · rintro ⟨-, -, h⟩
      exact h
    · intro h
      exact ⟨by rw [hlen, hkm_len], hv, h⟩
  simp only [Function.comp_apply, decide_eq_true_eq]
  rw [hiff]
  by_cases hA : hamming_distance (kmerAt s (w + q) k) v ≤ d <;>
    by_cases hB : hamming_distance (kmerAt s (w + q) k) (reverse_complement v) ≤ d <;>
    cases use_rc <;> simp [hA, hB]

theorem contribCount_pos_valid (s : List Char) (k d : Nat) (use_rc : Bool)
    (lo len : Nat) (v : List Char) (hs : validDNA s = true)
    (hbound : lo + len + k ≤ s.length + 1)
    (hpos : 0 < contribCount s k d use_rc lo len v) :
    v.length = k ∧ validDNA v = true := by
  unfold contribCount at hpos
  rw [List.countP_pos_iff] at hpos
  obtain ⟨p, hp, hpred⟩ := hpos
  rw [List.mem_range'_1] at hp
  rw [decide_eq_true_eq] at hpred
  have hkm_len : (kmerAt s p k).length = k :=
    kmerAt_length s p k (by omega)
  have hkm_val := validDNA_kmerAt s p k hs
  obtain ⟨h1, h2, -⟩ := (mem_variantList_iff d use_rc _ v hkm_val).mp hpred
  exact ⟨by rw [h1, hkm_len], h2⟩

theorem contribCount_init_mono (s : List Char) (k d : Nat) (use_rc : Bool)
    (v : List Char) (j j' : Nat) (h : j ≤ j') :
    contribCount s k d use_rc 0 j v ≤ contribCount s k d use_rc 0 j' v := by
  induction j' with
  | zero =>
      have h0 : j = 0 := by omega
      subst h0
      exact Nat.le_refl _
  | succ j'' ih =>
      by_cases he : j = j'' + 1
      · subst he; exact Nat.le_refl _
      · have h2 := ih (by omega)
        rw [contribCount_concat]
        split_ifs <;> omega

theorem recSpec_isSome_iff (s : List Char) (k L t d : Nat) (use_rc : Bool)
    (ht : 1 ≤ t) (m : Nat) (v : List Char) :
    (recSpec s k L t d use_rc m v).isSome = true ↔
      ∃ w, w ≤ m ∧ t ≤ contribCount s k d use_rc w (L - k + 1) v := by
  constructor
  · intro h
    unfold recSpec at h
    cases hinit : recSpecInit s k t d use_rc (L - k + 1) v with
    | some r =>
        unfold recSpecInit at hinit
        cases hfind : (List.range (L - k + 1)).find?
            (fun i => decide (t ≤ contribCount s k d use_rc 0 (i + 1) v)) with
        | none => rw [hfind] at hinit; simp at hinit
        | some i =>
            have hprop := List.find?_some hfind
            rw [decide_eq_true_eq] at hprop
            have hmemi := List.mem_of_find?_eq_some hfind
            rw [List.mem_range] at hmemi
            refine ⟨0, by omega, ?_⟩
            calc t ≤ contribCount s k d use_rc 0 (i + 1) v := hprop
              _ ≤ contribCount s k d use_rc 0 (L - k + 1) v :=
                contribCount_init_mono s k d use_rc v (i + 1) (L - k + 1) (by omega)
    | none =>
        rw [hinit] at h
        cases hfind : (List.range m).find?
            (fun w => decide (t ≤ contribCount s k d use_rc (w + 1) (L - k + 1) v)) with
        | none => rw [hfind] at h; simp at h
        | some w =>
            have hprop := List.find?_some hfind
            rw [decide_eq_true_eq] at hprop
            have hmemw := List.mem_of_find?_eq_some hfind
            rw [List.mem_range] at hmemw
            exact ⟨w + 1, by omega, hprop⟩
  · rintro ⟨w, hw, hcnt⟩
    by_contra hns
    have hnone : recSpec s k L t d use_rc m v = none :=
      Option.not_isSome_iff_eq_none.mp (by simpa using hns)
    have := recSpec_none_lt s k L t d use_rc ht m v hnone w hw
    omega

theorem recSpecInit_fst (s : List Char) (k t d : Nat) (use_rc : Bool) (j : Nat)
    (v : List Char) (r : ClumpRecord)
    (h : recSpecInit s k t d use_rc j v = some r) : r.1 = v := by
  unfold recSpecInit at h
  cases hfind : (List.range j).find?
      (fun i => decide (t ≤ contribCount s k d use_rc 0 (i + 1) v)) with
  | none => rw [hfind] at h; simp at h
  | some i =>
      rw [hfind] at h
      simp only [Option.some.injEq] at h
      rw [← h]
      rfl

theorem recSpec_fst (s : List Char) (k L t d : Nat) (use_rc : Bool) (m : Nat)
    (v : List Char) (r : ClumpRecord)
    (h : recSpec s k L t d use_rc m v = some r) : r.1 = v := by
  unfold recSpec at h
  cases hinit : recSpecInit s k t d use_rc (L - k + 1) v with
  | some r2 =>
      rw [hinit] at h
      simp only [Option.some.injEq] at h
      rw [← h]
      exact recSpecInit_fst s k t d use_rc (L - k + 1) v r2 hinit
  | none =>
      rw [hinit] at h
      cases hfind : (List.range m).find?
          (fun w => decide (t ≤ contribCount s k d use_rc (w + 1) (L - k + 1) v)) with
      | none => rw [hfind] at h; simp at h
      | some w =>
          rw [hfind] at h
          simp only [Option.some.injEq] at h
          rw [← h]
          rfl

theorem qSpec_map_fst (s : List Char) (k d : Nat) (use_rc : Bool) (lo len : Nat)
    (v : List Char) :
    (qSpec s k d use_rc lo len v).map Prod.fst
      = (List.range' lo len).filter
          (fun p => decide (v ∈ variantList d use_rc (kmerAt s p k))) := by
  unfold qSpec
  suffices h : ∀ l : List Nat,
      ((l.filterMap (fun p =>
        if v ∈ variantList d use_rc (kmerAt s p k) then some (p, v == kmerAt s p k)
        else none)).map Prod.fst)
        = l.filter (fun p => decide (v ∈ variantList d use_rc (kmerAt s p k))) from
    h _
  intro l
  induction l with
  | nil => rfl
  | cons p l ih =>
      rw [List.filterMap_cons, List.filter_cons]
      by_cases hm : v ∈ variantList d use_rc (kmerAt s p k)
      · rw [if_pos hm, if_pos (by simpa using hm), List.map_cons, ih]
      · rw [if_neg hm, if_neg (by simpa using hm), ih]

/-- C1. The pattern set of `find_clumps` equals the brute-force clump set:
the run succeeds, and a pattern has a record iff it is a k-length DNA string
whose brute-force per-window count (occurrences within Hamming distance `d`
of the candidate, or of its reverse complement in RC mode) reaches `t` in
some window; every record carries its own pattern. -/
theorem find_clumps_matches_bruteforce (s : List Char) (k L t d : Nat)
    (use_rc : Bool) (hs : validDNA s = true) (hk : 1 ≤ k) (hkL : k ≤ L)
    (hLs : L ≤ s.length) (ht : 1 ≤ t) :
    ∃ cl, find_clumps s k L t d use_rc = some cl ∧
      (∀ v : List Char, (cl v).isSome = true ↔
        (v.length = k ∧ validDNA v = true ∧
          ∃ w, w ≤ s.length - L ∧ t ≤ bruteCount s k L d use_rc w v)) ∧
      (∀ v r, cl v = some r → r.1 = v) := by
  obtain ⟨st, hst, hfreq, hclumps⟩ :=
    fcStates_inv s k L t d use_rc hk hkL hLs ht (s.length - L) (Nat.le_refl _)
  refine ⟨st.clumps, ?_, ?_, ?_⟩
  · unfold find_clumps
    rw [if_neg (by omega), hst]
    rfl
  · intro v
    rw [hclumps v, recSpec_isSome_iff s k L t d use_rc ht]
    constructor
    · rintro ⟨w, hw, hcnt⟩
      obtain ⟨hlen, hval⟩ := contribCount_pos_valid s k d use_rc w (L - k + 1) v
        hs (by omega) (by omega)
      refine ⟨hlen, hval, w, hw, ?_⟩
      rw [← contribCount_eq_bruteCount s k L d use_rc w v hs hval hlen hkL (by omega)]
      exact hcnt
    · rintro ⟨hlen, hval, w, hw, hcnt⟩
      refine ⟨w, hw, ?_⟩
      rw [contribCount_eq_bruteCount s k L d use_rc w v hs hval hlen hkL (by omega)]
      exact hcnt
  · intro v r hr
    rw [hclumps v] at hr
    exact recSpec_fst s k L t d use_rc _ v r hr

/-- Witness for C1 on `s = "AC"`, `k = L = t = 1`, `d = 0`, no RC. -/
theorem find_clumps_matches_bruteforce_witness :
    (validDNA ['A', 'C'] = true ∧ 1 ≤ (['A', 'C'] : List Char).length) ∧
      (∃ cl, find_clumps ['A', 'C'] 1 1 1 0 false = some cl ∧
        (∀ v : List Char, (cl v).isSome = true ↔
          (v.length = 1 ∧ validDNA v = true ∧
            ∃ w, w ≤ (['A', 'C'] : List Char).length - 1 ∧
              1 ≤ bruteCount ['A', 'C'] 1 1 0 false w v)) ∧
        (∀ v r, cl v = some r → r.1 = v)) :=
  ⟨⟨by decide, by decide⟩,
    find_clumps_matches_bruteforce ['A', 'C'] 1 1 1 0 false (by decide) (by decide)
      (by decide) (by decide) (by decide)⟩

/-- C6. Record policy of `find_clumps`: along the whole scan the clump dict
equals `recSpec` — a record for a variant exists exactly from the first step
at which its combined count reaches `t`, and its content is the snapshot of
that moment: the variant itself, the front of the variant's FIFO queue (the
earliest contribution still live in the window, not the triggering
position), and the counters at that moment; later steps never alter or
remove it. -/
theorem find_clumps_record_policy (s : List Char) (k L t d : Nat)
    (use_rc : Bool) (hk : 1 ≤ k) (hkL : k ≤ L) (hLs : L ≤ s.length) (ht : 1 ≤ t) :
    ∀ m, m ≤ s.length - L →
      ∃ st, fcStates s k L t d use_rc m = some st ∧
        (∀ v, st.clumps v = recSpec s k L t d use_rc m v) ∧
        (∀ v r, st.clumps v = some r → r.1 = v ∧
          ∀ m', m ≤ m' → m' ≤ s.length - L →
            ∃ st', fcStates s k L t d use_rc m' = some st' ∧
              st'.clumps v = some r) := by
  intro m hm
  obtain ⟨st, hst, -, hclumps⟩ := fcStates_inv s k L t d use_rc hk hkL hLs ht m hm
  refine ⟨st, hst, hclumps, ?_⟩
  intro v r hr
  rw [hclumps v] at hr
  refine ⟨recSpec_fst s k L t d use_rc m v r hr, ?_⟩
  intro m' hmm' hm'
  obtain ⟨st', hst', -, hclumps'⟩ := fcStates_inv s k L t d use_rc hk hkL hLs ht m' hm'
  refine ⟨st', hst', ?_⟩
  rw [hclumps' v]
  exact recSpec_mono s k L t d use_rc m m' v r hmm' hr

/-- Witness for C6 on `s = "AC"`, `k = L = t = 1`, `d = 0`, no RC. -/
theorem find_clumps_record_policy_witness :
    (1 ≤ (['A', 'C'] : List Char).length ∧ 1 ≤ 1) ∧
      (∀ m, m ≤ (['A', 'C'] : List Char).length - 1 →
        ∃ st, fcStates ['A', 'C'] 1 1 1 0 false m = some st ∧
          (∀ v, st.clumps v = recSpec ['A', 'C'] 1 1 1 0 false m v) ∧
          (∀ v r, st.clumps v = some r → r.1 = v ∧
            ∀ m', m ≤ m' → m' ≤ (['A', 'C'] : List Char).length - 1 →
              ∃ st', fcStates ['A', 'C'] 1 1 1 0 false m' = some st' ∧
                st'.clumps v = some r)) :=
  ⟨⟨by decide, by decide⟩,
    find_clumps_record_policy ['A', 'C'] 1 1 1 0 false (by decide) (by decide)
      (by decide) (by decide)⟩

/-- C7. Queue/counter invariant of `find_clumps`: every scan prefix succeeds
(in particular no `popleft` ever sees an empty queue), and after each step
every variant's queue is exactly the list of its live contributions in
ascending position order, with `exact + var` equal to the queue length. -/
theorem find_clumps_queue_invariant (s : List Char) (k L t d : Nat)
    (use_rc : Bool) (hk : 1 ≤ k) (hkL : k ≤ L) (hLs : L ≤ s.length) (ht : 1 ≤ t) :
    ∀ m, m ≤ s.length - L →
      ∃ st, fcStates s k L t d use_rc m = some st ∧
        ∀ v, (st.freq v).q = qSpec s k d use_rc m (L - k + 1) v ∧
          (st.freq v).exact + (st.freq v).var = ((st.freq v).q.length : Int) ∧
          ((st.freq v).q.map Prod.fst).Pairwise (· < ·) := by
  intro m hm
  obtain ⟨st, hst, hfreq, -⟩ := fcStates_inv s k L t d use_rc hk hkL hLs ht m hm
  refine ⟨st, hst, ?_⟩
  intro v
  obtain ⟨hq, he, hv⟩ := hfreq v
  refine ⟨hq, ?_, ?_⟩
  · rw [he, hv, hq, ← Nat.cast_add, countP_flags_add]
  · rw [hq, qSpec_map_fst]
    exact (List.pairwise_lt_range' m (L - k + 1)).filter _

/-- Witness for C7 on `s = "AC"`, `k = L = t = 1`, `d = 0`, no RC. -/
theorem find_clumps_queue_invariant_witness :
    (1 ≤ (['A', 'C'] : List Char).length ∧ 1 ≤ 1) ∧
      (∀ m, m ≤ (['A', 'C'] : List Char).length - 1 →
        ∃ st, fcStates ['A', 'C'] 1 1 1 0 false m = some st ∧
          ∀ v, (st.freq v).q = qSpec ['A', 'C'] 1 0 false m (1 - 1 + 1) v ∧
            (st.freq v).exact + (st.freq v).var = ((st.freq v).q.length : Int) ∧
            ((st.freq v).q.map Prod.fst).Pairwise (· < ·)) :=
  ⟨⟨by decide, by decide⟩,
    find_clumps_queue_invariant ['A', 'C'] 1 1 1 0 false (by decide) (by decide)
      (by decide) (by decide)⟩

/-! ### C9: clump deduplication (`clean_clump_noise` in `bio_utils.py`)

Python's `list.sort` is stable; `key=lambda x: (x[2], x[2]+x[3])` with
`reverse=True` is a stable descending sort by the lexicographic pair
`(exact, exact + var)`, and the final `sorted(result, key=lambda x: x[1])`
is a stable ascending sort by position.  Both are embedded as
`List.mergeSort` (stable) with the matching `le` comparators. -/

/-- The sort key `(x[2], x[2] + x[3])` of a clump record. -/
def recKey (r : ClumpRecord) : Int × Int := (r.2.2.1, r.2.2.1 + r.2.2.2)

/-- Lexicographic `≤` on Python tuples of two ints. -/
def lexLe (x y : Int × Int) : Bool :=
  decide (x.1 < y.1) || (decide (x.1 = y.1) && decide (x.2 ≤ y.2))

/-- The comparator of `remaining.sort(key=..., reverse=True)`: `a` may stay
before `b` iff `a`'s key is lex-greater-or-equal. -/
def keyDescLe (a b : ClumpRecord) : Bool := lexLe (recKey b) (recKey a)

/-- The comparator of the final `sorted(result, key=lambda x: x[1])`. -/
def posLe (a b : ClumpRecord) : Bool := decide (a.2.1 ≤ b.2.1)

/-- The `while remaining:` loop of `clean_clump_noise`: sort by count
(descending, stable), pop the best, drop everything within Hamming distance
`d` of it, repeat. -/
def ccnLoop (d : Nat) (l : List ClumpRecord) : List ClumpRecord :=
  match hl : l.mergeSort keyDescLe with
  | [] => []
  | best :: rest =>
      best :: ccnLoop d (rest.filter (fun e => decide (d < hamming_distance e.1 best.1)))
termination_by l.length
decreasing_by
  simp_wf
  have hlen : (l.mergeSort keyDescLe).length = l.length := List.length_mergeSort l
  rw [hl] at hlen
  have hfl := List.length_filter_le
    (fun e => decide (d < hamming_distance e.1 best.1)) rest
  simp only [List.length_cons] at hlen
  omega

/-- `clean_clump_noise(clump_results, d)` from `bio_utils.py`. -/
def clean_clump_noise (clump_results : List ClumpRecord) (d : Nat) : List ClumpRecord :=
  (ccnLoop d clump_results).mergeSort posLe

theorem lexLe_total (x y : Int × Int) : lexLe x y || lexLe y x := by
  unfold lexLe
  simp only [Bool.or_eq_true, Bool.and_eq_true, decide_eq_true_eq]
  omega

theorem keyDescLe_total (a b : ClumpRecord) : keyDescLe a b || keyDescLe b a := by
  unfold keyDescLe
  rw [Bool.or_comm]
  exact lexLe_total (recKey a) (recKey b)

theorem keyDescLe_trans (a b c : ClumpRecord)
    (h1 : keyDescLe a b) (h2 : keyDescLe b c) : keyDescLe a c := by
  unfold keyDescLe lexLe at *
  simp only [Bool.or_eq_true, Bool.and_eq_true, decide_eq_true_eq] at *
  omega

theorem posLe_total (a b : ClumpRecord) : posLe a b || posLe b a := by
  unfold posLe
  simp only [Bool.or_eq_true, decide_eq_true_eq]
  omega

theorem posLe_trans (a b c : ClumpRecord)
    (h1 : posLe a b) (h2 : posLe b c) : posLe a c := by
  unfold posLe at *
  simp only [decide_eq_true_eq] at *
  omega

theorem hamming_comm : ∀ (a b : List Char),
    hamming_distance a b = hamming_distance b a := by
  intro a
  induction a with
  | nil => intro b; cases b <;> rfl
  | cons x a' ih =>
      intro b
      cases b with
      | nil => rfl
      | cons y b' =>
          rw [hamming_cons, hamming_cons, ih b']
          congr 1
          by_cases h : x = y
          · subst h; simp
          · rw [bne_iff_ne.mpr h, bne_iff_ne.mpr (fun hc => h hc.symm)]

theorem ccnLoop_eq_nil (d : Nat) (l : List ClumpRecord)
    (h : l.mergeSort keyDescLe = []) : ccnLoop d l = [] := by
  rw [ccnLoop]
  split
  · rfl
  · next best rest heq =>
      rw [h] at heq
      exact absurd heq (by simp)

theorem ccnLoop_eq_cons (d : Nat) (l : List ClumpRecord)
    (best : ClumpRecord) (rest : List ClumpRecord)
    (h : l.mergeSort keyDescLe = best :: rest) :
    ccnLoop d l
      = best :: ccnLoop d
          (rest.filter (fun e => decide (d < hamming_distance e.1 best.1))) := by
  rw [ccnLoop]
  split
  · next heq =>
      rw [h] at heq
      exact absurd heq (by simp)
  · next b r heq =>
      rw [h] at heq
      injection heq with h1 h2
      subst h1
      subst h2
      rfl

theorem ccnLoop_subset (d : Nat) : ∀ (n : Nat) (l : List ClumpRecord),
    l.length ≤ n → ∀ x ∈ ccnLoop d l, x ∈ l := by
  intro n
  induction n with
  | zero =>
      intro l hl x hx
      have hnil : l = [] := List.length_eq_zero.mp (by omega)
      subst hnil
      rw [ccnLoop_eq_nil d [] (by simp)] at hx
      exact absurd hx (by simp)
  | succ n ih =>
      intro l hl x hx
      cases hms : l.mergeSort keyDescLe with
      | nil =>
          rw [ccnLoop_eq_nil d l hms] at hx
          exact absurd hx (by simp)
      | cons best rest =>
          rw [ccnLoop_eq_cons d l best rest hms] at hx
          have hlen : (l.mergeSort keyDescLe).length = l.length :=
            List.length_mergeSort l
          rw [hms] at hlen
          simp only [List.length_cons] at hlen
          have hmem : ∀ y, y ∈ best :: rest → y ∈ l := by
            intro y hy
            have : y ∈ l.mergeSort keyDescLe := by rw [hms]; exact hy
            rwa [List.mem_mergeSort] at this
          rcases List.mem_cons.mp hx with rfl | hx2
          · exact hmem x (List.mem_cons_self _ _)
          · have hfl := List.length_filter_le
              (fun e => decide (d < hamming_distance e.1 best.1)) rest
            have hx3 := ih _ (by omega) x hx2
            exact hmem x (List.mem_cons_of_mem _ (List.mem_of_mem_filter hx3))

theorem ccnLoop_pairwise_far (d : Nat) : ∀ (n : Nat) (l : List ClumpRecord),
    l.length ≤ n →
    (ccnLoop d l).Pairwise (fun a b => d < hamming_distance b.1 a.1) := by
  intro n
  induction n with
  | zero =>
      intro l hl
      have hnil : l = [] := List.length_eq_zero.mp (by omega)
      subst hnil
      rw [ccnLoop_eq_nil d [] (by simp)]
      exact List.Pairwise.nil
  | succ n ih =>
      intro l hl
      cases hms : l.mergeSort keyDescLe with
      | nil =>
          rw [ccnLoop_eq_nil d l hms]
          exact List.Pairwise.nil
      | cons best rest =>
          rw [ccnLoop_eq_cons d l best rest hms]
          have hlen : (l.mergeSort keyDescLe).length = l.length :=
            List.length_mergeSort l
          rw [hms] at hlen
          simp only [List.length_cons] at hlen
          have hfl := List.length_filter_le
            (fun e => decide (d < hamming_distance e.1 best.1)) rest
          rw [List.pairwise_cons]
          refine ⟨?_, ih _ (by omega)⟩
          intro y hy
          have hy2 := ccnLoop_subset d _ _ (Nat.le_refl _) y hy
          have := List.of_mem_filter hy2
          rwa [decide_eq_true_eq] at this

theorem ccnLoop_sorted_key (d : Nat) : ∀ (n : Nat) (l : List ClumpRecord),
    l.length ≤ n → (ccnLoop d l).Pairwise (fun a b => keyDescLe a b = true) := by
  intro n
  induction n with
  | zero =>
      intro l hl
      have hnil : l = [] := List.length_eq_zero.mp (by omega)
      subst hnil
      rw [ccnLoop_eq_nil d [] (by simp)]
      exact List.Pairwise.nil
  | succ n ih =>
      intro l hl
      cases hms : l.mergeSort keyDescLe with
      | nil =>
          rw [ccnLoop_eq_nil d l hms]
          exact List.Pairwise.nil
      | cons best rest =>
          rw [ccnLoop_eq_cons d l best rest hms]
          have hlen : (l.mergeSort keyDescLe).length = l.length :=
            List.length_mergeSort l
          rw [hms] at hlen
          simp only [List.length_cons] at hlen
          have hfl := List.length_filter_le
            (fun e => decide (d < hamming_distance e.1 best.1)) rest
          have hsorted : (l.mergeSort keyDescLe).Pairwise
              (fun a b => keyDescLe a b = true) :=
            List.sorted_mergeSort keyDescLe_trans keyDescLe_total l
          rw [hms, List.pairwise_cons] at hsorted
          rw [List.pairwise_cons]
          refine ⟨?_, ih _ (by omega)⟩
          intro y hy
          have hy2 := ccnLoop_subset d _ _ (Nat.le_refl _) y hy
          exact hsorted.1 y (List.mem_of_mem_filter hy2)

theorem ccnLoop_of_sorted (d : Nat) : ∀ (n : Nat) (l : List ClumpRecord),
    l.length ≤ n → l.Pairwise (fun a b => keyDescLe a b = true) →
    l.Pairwise (fun a b => d < hamming_distance b.1 a.1) →
    ccnLoop d l = l := by
  intro n
  induction n with
  | zero =>
      intro l hl _ _
      have hnil : l = [] := List.length_eq_zero.mp (by omega)
      subst hnil
      exact ccnLoop_eq_nil d [] (by simp)
  | succ n ih =>
      intro l hl hK hF
      have hms : l.mergeSort keyDescLe = l := List.mergeSort_of_sorted hK
      cases hcase : l with
      | nil => exact ccnLoop_eq_nil d [] (by simp)
      | cons best rest =>
          subst hcase
          rw [ccnLoop_eq_cons d _ best rest hms]
          rw [List.pairwise_cons] at hK hF
          have hfilter : rest.filter
              (fun e => decide (d < hamming_distance e.1 best.1)) = rest := by
            rw [List.filter_eq_self]
            intro e he
            rw [decide_eq_true_eq]
            exact hF.1 e he
          rw [hfilter, ih rest (by simp at hl; omega) hK.2 hF.2]

theorem ccnLoop_far_eq_mergeSort (d : Nat) (l : List ClumpRecord)
    (hfar : l.Pairwise (fun a b => d < hamming_distance b.1 a.1)) :
    ccnLoop d l = l.mergeSort keyDescLe := by
  have hsym : Symmetric (fun a b : ClumpRecord => d < hamming_distance b.1 a.1) := by
    intro a b hab
    rw [hamming_comm]
    exact hab
  cases hms : l.mergeSort keyDescLe with
  | nil => exact ccnLoop_eq_nil d l hms
  | cons best rest =>
      rw [ccnLoop_eq_cons d l best rest hms]
      have hperm : List.Perm (l.mergeSort keyDescLe) l := List.mergeSort_perm l _
      have hfar2 : (l.mergeSort keyDescLe).Pairwise
          (fun a b => d < hamming_distance b.1 a.1) :=
        (hperm.pairwise_iff (fun hab => hsym hab)).mpr hfar
      have hsorted : (l.mergeSort keyDescLe).Pairwise
          (fun a b => keyDescLe a b = true) :=
        List.sorted_mergeSort keyDescLe_trans keyDescLe_total l
      rw [hms, List.pairwise_cons] at hfar2 hsorted
      have hfilter : rest.filter
          (fun e => decide (d < hamming_distance e.1 best.1)) = rest := by
        rw [List.filter_eq_self]
        intro e he
        rw [decide_eq_true_eq]
        exact hfar2.1 e he
      rw [hfilter, ccnLoop_of_sorted d rest.length rest (Nat.le_refl _)
        hsorted.2 hfar2.2]

/-- A stable sort does not disturb a filter whose extraction is already
sorted: the filtered subsequence reappears unchanged in the sorted list. -/
theorem filter_mergeSort_of_pairwise (le : ClumpRecord → ClumpRecord → Bool)
    (htrans : ∀ a b c : ClumpRecord, le a b → le b c → le a c)
    (htotal : ∀ a b : ClumpRecord, le a b || le b a)
    (l : List ClumpRecord) (pred : ClumpRecord → Bool)
    (hp : (l.filter pred).Pairwise (fun a b => le a b = true)) :
    (l.mergeSort le).filter pred = l.filter pred := by
  have hsub : List.Sublist (l.filter pred) (l.mergeSort le) :=
    List.sublist_mergeSort htrans htotal hp (List.filter_sublist l)
  have hself : (l.filter pred).filter pred = l.filter pred :=
    List.filter_eq_self.mpr (fun a ha => List.of_mem_filter ha)
  have hsub2 : List.Sublist (l.filter pred) ((l.mergeSort le).filter pred) := by
    rw [← hself]
    exact hsub.filter pred
  have hlen : ((l.mergeSort le).filter pred).length = (l.filter pred).length :=
    ((List.mergeSort_perm l le).filter pred).length_eq
  exact (hsub2.eq_of_length hlen.symm).symm

/-- Records filtered to one fixed position are trivially position-sorted. -/
theorem filter_pos_pairwise (l : List ClumpRecord) (p : Nat) :
    (l.filter (fun r => r.2.1 == p)).Pairwise (fun a b => posLe a b = true) := by
  have hall : ∀ a ∈ l.filter (fun r => r.2.1 == p),
      ∀ b ∈ l.filter (fun r => r.2.1 == p), posLe a b = true := by
    intro a ha b hb
    have ha2 : a.2.1 = p := by
      have h3 := List.of_mem_filter ha
      simpa using h3
    have hb2 : b.2.1 = p := by
      have h3 := List.of_mem_filter hb
      simpa using h3
    unfold posLe
    rw [ha2, hb2]
    simp
  exact List.pairwise_of_forall_mem_list hall

/-- Two position-sorted lists with identical per-position filters are
equal. -/
theorem eq_of_posSorted_filter_eq :
    ∀ (l₁ l₂ : List ClumpRecord),
      l₁.Pairwise (fun a b => posLe a b = true) →
      l₂.Pairwise (fun a b => posLe a b = true) →
      (∀ p : Nat, l₁.filter (fun r => r.2.1 == p) = l₂.filter (fun r => r.2.1 == p)) →
      l₁ = l₂ := by
  intro l₁
  induction l₁ with
  | nil =>
      intro l₂ _ _ hf
      cases l₂ with
      | nil => rfl
      | cons b l₂' =>
          have h := hf b.2.1
          rw [List.filter_nil, List.filter_cons, if_pos (beq_self_eq_true _)] at h
          exact absurd h (by simp)
  | cons a l₁' ih =>
      intro l₂ h1 h2 hf
      cases l₂ with
      | nil =>
          have h := hf a.2.1
          rw [List.filter_nil, List.filter_cons, if_pos (beq_self_eq_true _)] at h
          exact absurd h (by simp)
      | cons b l₂' =>
          rw [List.pairwise_cons] at h1 h2
          have hab : a = b := by
            by_cases hpos : a.2.1 = b.2.1
            · have h := hf a.2.1
              rw [List.filter_cons, List.filter_cons,
                if_pos (beq_self_eq_true _),
                if_pos (beq_iff_eq.mpr hpos.symm)] at h
              exact (List.cons_eq_cons.mp h).1
            · exfalso
              have ha := hf a.2.1
              rw [List.filter_cons, List.filter_cons,
                if_pos (beq_self_eq_true _),
                if_neg (fun hc => hpos (beq_iff_eq.mp hc).symm)] at ha
              have hamem : a ∈ l₂' := by
                have : a ∈ l₂'.filter (fun r => r.2.1 == a.2.1) := by
                  rw [← ha]
                  exact List.mem_cons_self _ _
                exact List.mem_of_mem_filter this
              have hb_le_a : b.2.1 ≤ a.2.1 := by
                have := h2.1 a hamem
                unfold posLe at this
                rwa [decide_eq_true_eq] at this
              have hb := hf b.2.1
              rw [List.filter_cons, List.filter_cons,
                if_pos (beq_self_eq_true _),
                if_neg (fun hc => hpos (beq_iff_eq.mp hc))] at hb
              have hbmem : b ∈ l₁' := by
                have : b ∈ l₁'.filter (fun r => r.2.1 == b.2.1) := by
                  rw [hb]
                  exact List.mem_cons_self _ _
                exact List.mem_of_mem_filter this
              have ha_le_b : a.2.1 ≤ b.2.1 := by
                have := h1.1 b hbmem
                unfold posLe at this
                rwa [decide_eq_true_eq] at this
              exact hpos (by omega)
          subst hab
          have htails : l₁' = l₂' := by
            apply ih l₂' h1.2 h2.2
            intro p
            have h := hf p
            rw [List.filter_cons, List.filter_cons] at h
            by_cases hp : (a.2.1 == p) = true
            · rw [if_pos hp, if_pos hp] at h
              exact (List.cons_eq_cons.mp h).2
            · rw [if_neg hp, if_neg hp] at h
              exact h
          rw [htails]

/-- C9. `clean_clump_noise` is idempotent: applying the greedy deduplication
twice yields the same list as applying it once. -/
theorem clean_clump_noise_idempotent (clump_results : List ClumpRecord) (d : Nat)
    (hlen : ∀ r ∈ clump_results, ∀ r2 ∈ clump_results, r.1.length = r2.1.length) :
    clean_clump_noise (clean_clump_noise clump_results d) d
      = clean_clump_noise clump_results d := by
  unfold clean_clump_noise
  have hsym : Symmetric (fun a b : ClumpRecord => d < hamming_distance b.1 a.1) := by
    intro a b hab
    rw [hamming_comm]
    exact hab
  have hgR : (ccnLoop d clump_results).Pairwise
      (fun a b => d < hamming_distance b.1 a.1) :=
    ccnLoop_pairwise_far d clump_results.length clump_results (Nat.le_refl _)
  have hgK : (ccnLoop d clump_results).Pairwise (fun a b => keyDescLe a b = true) :=
    ccnLoop_sorted_key d clump_results.length clump_results (Nat.le_refl _)
  have hperm : List.Perm ((ccnLoop d clump_results).mergeSort posLe)
      (ccnLoop d clump_results) := List.mergeSort_perm _ _
  have hhR : ((ccnLoop d clump_results).mergeSort posLe).Pairwise
      (fun a b => d < hamming_distance b.1 a.1) :=
    (hperm.pairwise_iff (fun hab => hsym hab)).mpr hgR
  rw [ccnLoop_far_eq_mergeSort d _ hhR]
  apply eq_of_posSorted_filter_eq
  · exact List.sorted_mergeSort posLe_trans posLe_total _
  · exact List.sorted_mergeSort posLe_trans posLe_total _
  · intro p
    have f1 : ((ccnLoop d clump_results).mergeSort posLe).filter (fun r => r.2.1 == p)
        = (ccnLoop d clump_results).filter (fun r => r.2.1 == p) :=
      filter_mergeSort_of_pairwise posLe posLe_trans posLe_total _ _
        (filter_pos_pairwise _ p)
    have hp2 : (((ccnLoop d clump_results).mergeSort posLe).filter
        (fun r => r.2.1 == p)).Pairwise (fun a b => keyDescLe a b = true) := by
      rw [f1]
      exact hgK.sublist (List.filter_sublist _)
    have f2 := filter_mergeSort_of_pairwise keyDescLe keyDescLe_trans keyDescLe_total
      ((ccnLoop d clump_results).mergeSort posLe) (fun r => r.2.1 == p) hp2
    have f3 := filter_mergeSort_of_pairwise posLe posLe_trans posLe_total
      (((ccnLoop d clump_results).mergeSort posLe).mergeSort keyDescLe)
      (fun r => r.2.1 == p) (filter_pos_pairwise _ p)
    rw [f3, f2]

/-- Witness for C9 on a concrete two-record list with distance bound 1. -/
theorem clean_clump_noise_idempotent_witness :
    clean_clump_noise (clean_clump_noise
        [(['A'], 2, (3 : Int), (1 : Int)), (['C'], 0, (2 : Int), (0 : Int))] 1) 1
      = clean_clump_noise
        [(['A'], 2, (3 : Int), (1 : Int)), (['C'], 0, (2 : Int), (0 : Int))] 1 :=
  clean_clump_noise_idempotent
    [(['A'], 2, (3 : Int), (1 : Int)), (['C'], 0, (2 : Int), (0 : Int))] 1
    (by decide)

end BioSpec
